import Mathlib

/-!
Verification of the memory-management and inference subsystem of the
`ai-agent` repository (`src/main.js`, classes `Memory` and `ReasoningEngine`).

The JavaScript code is shallowly embedded: JS numbers are modelled as `ℚ`
(the code never relies on float rounding in the claims at issue), JS `Map`s
as insertion-ordered association lists with `Map.set`/`Map.delete` update
semantics, `Date.now()` and `generateId()` as explicit `now` / fresh-id
parameters, and `Math.exp` as an explicit function parameter `expf`
(its relevant analytic property, that `exp x ∈ (0, 1]` for `x < 0`, becomes a
hypothesis where it is needed).  A JS value that may or may not be a string
is `JSValue`; non-string values are opaque (`JSValue.other tag`, tags model
reference identity).  Operations that can throw a `TypeError` are embedded
in `Except Unit`.  Case folding is modelled with `Char.toLower` (ASCII).
-/

namespace Agent

/-- A JavaScript value as far as this core inspects one: either a string, or
an opaque non-string value (`typeof x !== 'string'`). -/
inductive JSValue where
  | str (s : String)
  | other (tag : Nat)
deriving DecidableEq, Repr

/-- String coercion of a `JSValue`, as in template literals and `Array.join`.
Non-string payloads in this repository are plain objects, whose default JS
coercion is `"[object Object]"`. -/
def JSValue.toStr : JSValue → String
  | .str s => s
  | .other _ => "[object Object]"

/-- Coercion used where the source reads a field that can be `undefined`
(an episodic search result has no `content` field). -/
def jsStr : Option JSValue → String
  | some v => v.toStr
  | none => "undefined"

/-! ### Character-list string primitives (JS `String` methods) -/

/-- `s.toLowerCase()` (ASCII case folding). -/
def lowerL (s : List Char) : List Char := s.map Char.toLower

/-- Whether `pre` is a prefix of `s`, by decidable character comparison. -/
def leadsWith : List Char → List Char → Bool
  | [], _ => true
  | _ :: _, [] => false
  | a :: as, b :: bs => a = b && leadsWith as bs

/-- `s.includes(sub)`: `sub` occurs contiguously in `s`. -/
def inclSub : List Char → List Char → Bool
  | [], sub => leadsWith sub []
  | c :: t, sub => leadsWith sub (c :: t) || inclSub t sub

/-- `s.includes(sub)` on `String`s. -/
def strIncl (s sub : String) : Bool := inclSub s.toList sub.toList

/-- `s.split(' ')` with one-space separator semantics: `"".split(' ')` is
`[""]`, consecutive spaces produce empty tokens. -/
def splitSpAux : List Char → List Char → List (List Char)
  | [], acc => [acc.reverse]
  | c :: rest, acc =>
    if c = ' ' then acc.reverse :: splitSpAux rest []
    else splitSpAux rest (c :: acc)

/-- `s.split(' ')`. -/
def splitSp (s : List Char) : List (List Char) := splitSpAux s []

/-! ### JS `Map` as insertion-ordered association list -/

/-- `map.get(k)` (`none` for a missing key, i.e. `undefined`). -/
def lookupKV {β : Type} : List (String × β) → String → Option β
  | [], _ => none
  | (k, v) :: rest, key => if k = key then some v else lookupKV rest key

/-- `map.set(k, v)`: update in place if the key exists (keeping its
insertion-order position), else append. -/
def setKV {β : Type} : List (String × β) → String → β → List (String × β)
  | [], key, v => [(key, v)]
  | (k, w) :: rest, key, v =>
    if k = key then (k, v) :: rest else (k, w) :: setKV rest key v

/-- `map.delete(k)`. -/
def delKV {β : Type} : List (String × β) → String → List (String × β)
  | [], _ => []
  | (k, w) :: rest, key => if k = key then rest else (k, w) :: delKV rest key

/-! ### Stable sort with a numeric sort key

`Array.prototype.sort` with a comparator of the form `f(a) - f(b)`
(respectively `f(b) - f(a)`) is a stable ascending (descending) sort by the
key `f`; every comparator in this core has that shape.  A stable insertion
sort reproduces the result exactly. -/

/-- Insert keeping the list sorted for the total preorder `le`; an element
goes before the first list element it satisfies `le` against (stability). -/
def insertByLe {α : Type} (le : α → α → Bool) (x : α) : List α → List α
  | [] => [x]
  | y :: ys => if le x y then x :: y :: ys else y :: insertByLe le x ys

/-- Stable insertion sort by `le`. -/
def sortByLe {α : Type} (le : α → α → Bool) (l : List α) : List α :=
  l.foldr (insertByLe le) []

/-- `arr.sort((a, b) => key a - key b)`: stable ascending sort by `key`. -/
def sortAscBy {α : Type} (key : α → ℚ) (l : List α) : List α :=
  sortByLe (fun a b => key a ≤ key b) l

/-- `arr.sort((a, b) => key b - key a)`: stable descending sort by `key`. -/
def sortDescBy {α : Type} (key : α → ℚ) (l : List α) : List α :=
  sortByLe (fun a b => key b ≤ key a) l

/-! ### Data model (`class Memory`, src/main.js:809) -/

/-- A short-term memory item (`addToShortTerm`, src/main.js:833). -/
structure MemoryItem where
  content : JSValue
  timestamp : ℚ
  importance : ℚ
  id : String
deriving DecidableEq, Repr

/-- A long-term memory item (`addToLongTerm`, src/main.js:856). -/
structure LTItem where
  content : JSValue
  importance : ℚ
  timestamp : ℚ
  accessCount : Nat
  lastAccess : ℚ
  consolidated : Bool
deriving DecidableEq, Repr

/-- `emotions` mapping produced by `analyzeEmotionalContext`
(src/main.js:1101): emotion name to `1`/`0`. -/
structure Emotions where
  happy : Nat
  sad : Nat
  angry : Nat
  surprised : Nat
deriving DecidableEq, Repr

/-- `getCurrentContext()` snapshot (src/main.js:1092). -/
structure Context where
  recentMemories : List MemoryItem
  timestamp : ℚ
  activeTopics : List String
deriving DecidableEq, Repr

/-- An episodic memory (`addEpisodicMemory`, src/main.js:876). -/
structure Episode where
  event : JSValue
  timestamp : ℚ
  context : Context
  emotions : Emotions
  importance : ℚ
  id : String
deriving DecidableEq, Repr

/-- State of `class Memory` (constructor, src/main.js:810-829).  `semantic`
and `procedural` are carried for completeness; no operation below touches
them. -/
structure Memory where
  shortTermCapacity : Nat
  longTermCapacity : Nat
  episodicCapacity : Nat
  shortTerm : List MemoryItem
  longTerm : List (String × LTItem)
  episodic : List Episode
  semantic : List (String × JSValue)
  procedural : List (String × JSValue)
  memoryWeights : List (String × ℚ)
  accessCount : List (String × Nat)
  lastAccess : List (String × ℚ)
  decayRate : ℚ
  consolidationThreshold : Nat
deriving DecidableEq, Repr

/-- JS `config.x || d` for a numeric config field: `0` (and an absent field,
i.e. `undefined`, which we also encode as `0`) falls back to the default. -/
def jsOrDefault (v d : Nat) : Nat := if v = 0 then d else v

/-- `new Memory(config)` (src/main.js:810): capacities default through `||`,
`decayRate = 0.1`, `consolidationThreshold = 5`, all stores empty. -/
def Memory.init (c1 c2 c3 : Nat) : Memory where
  shortTermCapacity := jsOrDefault c1 10
  longTermCapacity := jsOrDefault c2 1000
  episodicCapacity := jsOrDefault c3 500
  shortTerm := []
  longTerm := []
  episodic := []
  semantic := []
  procedural := []
  memoryWeights := []
  accessCount := []
  lastAccess := []
  decayRate := 1/10
  consolidationThreshold := 5

/-! ### Importance and relevance heuristics -/

/-- Keyword list of `calculateImportance` (src/main.js:966). -/
def importantKeywords : List String :=
  ["quan trọng", "cần nhớ", "important", "remember", "critical"]

/-- Emotional-word list of `calculateImportance` (src/main.js:976). -/
def emotionalWords : List String :=
  ["yêu", "ghét", "tuyệt vời", "tệ hại", "love", "hate"]

/-- `calculateImportance(content)` (src/main.js:961): base `0.5`; `+0.3` for
an importance keyword, `+0.1` for length `> 100`, `+0.2` for an emotional
word; clamped by `Math.min(importance, 1.0)`.  Non-string content keeps the
base value. -/
def calculateImportance (content : JSValue) : ℚ :=
  let importance : ℚ :=
    match content with
    | .str s =>
      let low := lowerL s.toList
      let i1 : ℚ :=
        1/2 + (if importantKeywords.any (fun k => inclSub low k.toList) then 3/10 else 0)
      let i2 : ℚ := i1 + (if s.toList.length > 100 then 1/10 else 0)
      i2 + (if emotionalWords.any (fun k => inclSub low k.toList) then 1/5 else 0)
    | .other _ => 1/2
  min importance 1

/-- `calculateRelevance(query, content)` (src/main.js:987): `0` unless both
are strings; otherwise lowercase space-split token lists, a query token
matches if some content token includes it or vice versa,
`similarity = matches / totalTokens`, boosted to
`Math.min(similarity + 0.5, 1.0)` when `content` contains the whole `query`
(case-insensitively). -/
def calculateRelevance (query content : JSValue) : ℚ :=
  match query, content with
  | .str q, .str c =>
    let queryTokens := splitSp (lowerL q.toList)
    let contentTokens := splitSp (lowerL c.toList)
    let matchCount :=
      queryTokens.countP (fun token =>
        contentTokens.any (fun cToken => inclSub cToken token || inclSub token cToken))
    let totalTokens := queryTokens.length
    let similarity : ℚ := (matchCount : ℚ) / (totalTokens : ℚ)
    if inclSub (lowerL c.toList) (lowerL q.toList) then min (similarity + 1/2) 1
    else similarity
  | _, _ => 0

/-! ### Memory operations -/

/-- `addToLongTerm(key, value, importance)` (src/main.js:855), without the
trailing capacity management (applied by `addToLongTerm` below): the stored
item and the `memoryWeights` update. -/
def setLongTerm (now : ℚ) (key : String) (value : JSValue) (importance : ℚ)
    (m : Memory) : Memory :=
  let memoryItem : LTItem :=
    { content := value
      importance := importance
      timestamp := now
      accessCount := 0
      lastAccess := now
      consolidated := false }
  { m with
    longTerm := setKV m.longTerm key memoryItem
    memoryWeights := setKV m.memoryWeights key importance }

/-- Composite eviction key of `manageLongTermCapacity` (src/main.js:1036):
the comparator `(a.importance - b.importance) + 0.1*(a.accessCount -
b.accessCount) + 0.001*(a.lastAccess - b.lastAccess)` is `f a - f b` for this
potential `f`, hence an ascending sort by `f`. -/
def compositeKey (e : String × LTItem) : ℚ :=
  e.2.importance + (e.2.accessCount : ℚ) * (1/10) + e.2.lastAccess * (1/1000)

/-- The per-entry removal in `manageLongTermCapacity`'s `toRemove.forEach`
(src/main.js:1047): delete the key from the store and the three side maps. -/
def deleteLTKey (mm : Memory) (k : String) : Memory :=
  { mm with
    longTerm := delKV mm.longTerm k
    memoryWeights := delKV mm.memoryWeights k
    accessCount := delKV mm.accessCount k
    lastAccess := delKV mm.lastAccess k }

/-- `manageLongTermCapacity()` (src/main.js:1028): when over capacity, sort
entries ascending by the composite key and delete the lowest
`size - capacity` of them from the store and the three side maps. -/
def manageLongTermCapacity (m : Memory) : Memory :=
  if m.longTerm.length ≤ m.longTermCapacity then m
  else
    let itemsByImportance := sortAscBy compositeKey m.longTerm
    let toRemove := itemsByImportance.take (m.longTerm.length - m.longTermCapacity)
    toRemove.foldl (fun mm e => deleteLTKey mm e.1) m

/-- `addToLongTerm(key, value, importance = 0.5)` (src/main.js:855): insert,
update the weight index, then manage capacity; returns the key. -/
def addToLongTerm (now : ℚ) (key : String) (value : JSValue) (importance : ℚ)
    (m : Memory) : String × Memory :=
  (key, manageLongTermCapacity (setLongTerm now key value importance m))

/-- `consolidateToLongTerm(shortTermItem)` (src/main.js:1017): store a copy
under `consolidated_<id>` and, if present after capacity management, mark it
`consolidated = true`. -/
def consolidateToLongTerm (now : ℚ) (shortTermItem : MemoryItem) (m : Memory) :
    Memory :=
  let key := "consolidated_" ++ shortTermItem.id
  let m := (addToLongTerm now key shortTermItem.content shortTermItem.importance m).2
  match lookupKV m.longTerm key with
  | some it => { m with longTerm := setKV m.longTerm key { it with consolidated := true } }
  | none => m

/-- `addToShortTerm(item)` (src/main.js:832): wrap with computed importance,
push; over capacity, shift the oldest and promote it to long-term when its
importance exceeds `0.7`.  Returns the new item's id. -/
def addToShortTerm (now : ℚ) (newId : String) (item : JSValue) (m : Memory) :
    String × Memory :=
  let memoryItem : MemoryItem :=
    { content := item
      timestamp := now
      importance := calculateImportance item
      id := newId }
  let m := { m with shortTerm := m.shortTerm ++ [memoryItem] }
  let m :=
    if m.shortTermCapacity < m.shortTerm.length then
      match m.shortTerm with
      | [] => m
      | removed :: rest =>
        let m := { m with shortTerm := rest }
        if 7/10 < removed.importance then consolidateToLongTerm now removed m else m
    else m
  (memoryItem.id, m)

/-- Topic keyword table of `getActiveTopics` (src/main.js:1128). -/
def topicKeywords : List (String × List String) :=
  [("technology", ["công nghệ", "ai", "robot", "computer", "technology"]),
   ("health", ["sức khỏe", "bệnh", "thuốc", "health", "medicine"]),
   ("education", ["học", "giáo dục", "trường", "education", "school"]),
   ("entertainment", ["phim", "nhạc", "game", "movie", "music"])]

/-- `getActiveTopics()` (src/main.js:1120): join the last five short-term
contents and collect the topics whose keyword occurs in the lowercased join. -/
def getActiveTopics (m : Memory) : List String :=
  let recentContent :=
    String.intercalate " "
      ((m.shortTerm.drop (m.shortTerm.length - 5)).map (fun item => item.content.toStr))
  (topicKeywords.filterMap (fun tk =>
    if tk.2.any (fun k => inclSub (lowerL recentContent.toList) k.toList) then some tk.1
    else none))

/-- `getCurrentContext()` (src/main.js:1092). -/
def getCurrentContext (now : ℚ) (m : Memory) : Context where
  recentMemories := m.shortTerm.drop (m.shortTerm.length - 3)
  timestamp := now
  activeTopics := getActiveTopics m

/-- Emotion keyword table of `analyzeEmotionalContext` (src/main.js:1103). -/
def emotionalKeywords : List (String × List String) :=
  [("happy", ["vui", "hạnh phúc", "vui vẻ", "happy", "joy", "excited"]),
   ("sad", ["buồn", "khóc", "sad", "cry", "depressed"]),
   ("angry", ["tức giận", "tức", "angry", "mad", "furious"]),
   ("surprised", ["ngạc nhiên", "surprised", "amazed", "shocked"])]

/-- `analyzeEmotionalContext(content)` (src/main.js:1101): calls
`content.toLowerCase()` with no `typeof` guard, so a non-string content
raises a `TypeError` (modelled as `Except.error ()`). -/
def analyzeEmotionalContext (content : JSValue) : Except Unit Emotions :=
  match content with
  | .str s =>
    let low := lowerL s.toList
    let has := fun (name : String) =>
      match lookupKV emotionalKeywords name with
      | some keywords => if keywords.any (fun k => inclSub low k.toList) then 1 else 0
      | none => 0
    Except.ok { happy := has "happy", sad := has "sad", angry := has "angry",
                surprised := has "surprised" }
  | .other _ => Except.error ()

/-- `addEpisodicMemory(event)` (src/main.js:875): build the episode (this
evaluates `analyzeEmotionalContext(event)`, which throws for a non-string
event before any state change — the error propagates), push, trim the oldest
over capacity. -/
def addEpisodicMemory (now : ℚ) (newId : String) (event : JSValue) (m : Memory) :
    Except Unit (String × Memory) :=
  match analyzeEmotionalContext event with
  | .error e => .error e
  | .ok emotions =>
    let episode : Episode :=
      { event := event
        timestamp := now
        context := getCurrentContext now m
        emotions := emotions
        importance := calculateImportance event
        id := newId }
    let m := { m with episodic := m.episodic ++ [episode] }
    let m :=
      if m.episodicCapacity < m.episodic.length then
        { m with episodic := m.episodic.tail }
      else m
    Except.ok (episode.id, m)

/-- The episode object `addEpisodicMemory` builds for a string event whose
emotion analysis returned `em`. -/
def episodeOf (now : ℚ) (newId : String) (s : String) (m : Memory) (em : Emotions) :
    Episode :=
  { event := .str s
    timestamp := now
    context := getCurrentContext now m
    emotions := em
    importance := calculateImportance (.str s)
    id := newId }

/-! ### Retrieval -/

/-- A `recall` search result: a spread of the found item plus `relevance` and
`type`.  An episodic spread carries no `content` field (the source spreads
`{...episode}`, which has `event` instead), modelled as `content = none`
(`undefined`). -/
structure SearchResult where
  id : String
  content : Option JSValue
  importance : ℚ
  relevance : ℚ
  resType : String
deriving DecidableEq, Repr

/-- `searchShortTerm(query)` (src/main.js:920). -/
def searchShortTerm (query : JSValue) (m : Memory) : List SearchResult :=
  (m.shortTerm.map (fun item =>
    { id := item.id
      content := some item.content
      importance := item.importance
      relevance := calculateRelevance query item.content
      resType := "shortterm" })).filter (fun r => 1/10 < r.relevance)

/-- `searchLongTerm(query)` (src/main.js:931). -/
def searchLongTerm (query : JSValue) (m : Memory) : List SearchResult :=
  m.longTerm.filterMap (fun e =>
    let relevance := calculateRelevance query e.2.content
    if 1/10 < relevance then
      some { id := e.1
             content := some e.2.content
             importance := e.2.importance
             relevance := relevance
             resType := "longterm" }
    else none)

/-- `searchEpisodic(query)` (src/main.js:950): relevance is computed against
`episode.event`; the spread result has no `content` field. -/
def searchEpisodic (query : JSValue) (m : Memory) : List SearchResult :=
  (m.episodic.map (fun episode =>
    { id := episode.id
      content := none
      importance := episode.importance
      relevance := calculateRelevance query episode.event
      resType := "episodic" })).filter (fun r => 1/10 < r.relevance)

/-- `updateAccess(id)` (src/main.js:1056): bump the access count, stamp the
access time; past the consolidation threshold nudge the weight index entry
(`memoryWeights` only — the item's `importance` field is not touched). -/
def updateAccess (now : ℚ) (id : String) (m : Memory) : Memory :=
  let count := (lookupKV m.accessCount id).getD 0
  let m := { m with
    accessCount := setKV m.accessCount id (count + 1)
    lastAccess := setKV m.lastAccess id now }
  if m.consolidationThreshold < count then
    let currentWeight := (lookupKV m.memoryWeights id).getD (1/2)
    { m with memoryWeights := setKV m.memoryWeights id (min (currentWeight + 1/10) 1) }
  else m

/-- `recall(query, memoryType = 'all')` (src/main.js:895): gather the
selected tiers, sort descending by relevance, and update access metadata for
every returned result.  (`recall` is a reserved word in this Lean setup,
hence the name `recallOp`.) -/
def recallOp (now : ℚ) (query : JSValue) (memoryType : String) (m : Memory) :
    List SearchResult × Memory :=
  let results :=
    (if memoryType = "all" ∨ memoryType = "shortterm" then searchShortTerm query m else []) ++
    (if memoryType = "all" ∨ memoryType = "longterm" then searchLongTerm query m else []) ++
    (if memoryType = "all" ∨ memoryType = "episodic" then searchEpisodic query m else [])
  let sorted := sortDescBy (fun r => r.relevance) results
  (sorted, sorted.foldl (fun mm r => updateAccess now r.id mm) m)

/-! ### Decay -/

/-- The 24-hour decay horizon of `applyDecay` (src/main.js:1071), in
milliseconds. -/
def decayThreshold : ℚ := 24 * 60 * 60 * 1000

/-- The per-entry body of `applyDecay`'s loop (src/main.js:1074-1087), as a
function of the decay-rate field: `none` means the entry is purged, `some`
keeps it (decayed when past the horizon). -/
def decayStep (expf : ℚ → ℚ) (now dr : ℚ) (e : String × LTItem) :
    Option (String × LTItem) :=
  let timeSinceAccess := now - e.2.lastAccess
  if decayThreshold < timeSinceAccess then
    let decayFactor := expf (-(dr * (timeSinceAccess / decayThreshold)))
    let importance := e.2.importance * decayFactor
    if importance < 1/10 ∧ e.2.consolidated = false then none
    else some (e.1, { e.2 with importance := importance })
  else some e

/-- `applyDecay()` (src/main.js:1069), with `Math.exp` supplied as `expf` and
`Date.now()` as `now`: every long-term item unaccessed for more than the
horizon has its importance multiplied by
`expf (-(decayRate * elapsed / horizon))`; it is purged (from the store and
the three side maps) when the result drops below `0.1` and the item is not
consolidated. -/
def applyDecay (expf : ℚ → ℚ) (now : ℚ) (m : Memory) : Memory :=
  let kept := m.longTerm.filterMap (decayStep expf now m.decayRate)
  let removed :=
    (m.longTerm.filter (fun e => decayStep expf now m.decayRate e = none)).map Prod.fst
  removed.foldl
    (fun mm k =>
      { mm with
        memoryWeights := delKV mm.memoryWeights k
        accessCount := delKV mm.accessCount k
        lastAccess := delKV mm.lastAccess k })
    { m with longTerm := kept }

/-! ### Sequences of public mutating operations (for the capacity claims) -/

/-- One public mutating call on the memory store, with its `Date.now()` value
and (where the source calls `generateId()`) a fresh identifier supplied
explicitly. -/
inductive MemOp where
  | addShort (now : ℚ) (newId : String) (item : JSValue)
  | addLong (now : ℚ) (key : String) (value : JSValue) (importance : ℚ)
  | addEpisodic (now : ℚ) (newId : String) (event : JSValue)
deriving DecidableEq, Repr

/-- Run one operation.  A call that throws (`addEpisodicMemory` on a
non-string event) leaves the state unchanged: the exception is raised while
building the episode object, before any mutation. -/
def applyOp (m : Memory) : MemOp → Memory
  | .addShort now newId item => (addToShortTerm now newId item m).2
  | .addLong now key value importance => (addToLongTerm now key value importance m).2
  | .addEpisodic now newId event =>
    match addEpisodicMemory now newId event m with
    | .ok r => r.2
    | .error _ => m

/-- Run a finite call sequence. -/
def runOps (ops : List MemOp) (m : Memory) : Memory := ops.foldl applyOp m

/-- The key list of an association-list map. -/
def keysOf {β : Type} (mp : List (String × β)) : List String := mp.map Prod.fst

/-- Well-formedness used in the capacity proofs: every tier within its
configured capacity and no duplicate long-term keys (true of every state a
`Memory` reaches through its own operations). -/
def capInv (m : Memory) : Prop :=
  m.shortTerm.length ≤ m.shortTermCapacity ∧
  m.longTerm.length ≤ m.longTermCapacity ∧
  m.episodic.length ≤ m.episodicCapacity ∧
  (keysOf m.longTerm).Nodup

/-- Repeated `applyDecay()` calls at the given sequence of `Date.now()`
values, with no intervening access. -/
def applyDecayN (expf : ℚ → ℚ) (nows : List ℚ) (m : Memory) : Memory :=
  nows.foldl (fun mm t => applyDecay expf t mm) m

/-! ### Rule templates (`class ReasoningEngine`, src/main.js:1231)

A template string such as `"if {A} then {B}"` is parsed into a leading
literal and a list of (placeholder name, following literal) pairs, mirroring
the regex `/\{([^}]+)\}/g` of `matchesRule` and `extractVariables` (a
placeholder is a nonempty brace-delimited group that contains no closing
brace; an unterminated or empty brace group stays literal text).  The two
regex modes are then modelled directly: `looseTest` is `.test` with each
placeholder as a greedy `(.+)` (existence of an unanchored case-insensitive
match), `lazyMatch` is `.match` with lazy groups `(.+?)` (leftmost match,
each gap as short as possible, captures keep the original case).  The
literal segments of this repository's patterns contain no regex
metacharacters, so literal-exact matching models them faithfully. -/

/-- The `{` character (written via its code so that brace-syntax scanners
see balanced text). -/
def lbrace : Char := Char.ofNat 123

/-- The `}` character. -/
def rbrace : Char := Char.ofNat 125

/-- Parse a template into leading literal and (name, following literal)
segments. -/
def parseSegs (l : List Char) (acc : List Char) :
    List Char × List (String × List Char) :=
  match l with
  | [] => (acc.reverse, [])
  | c :: rest =>
    if c = lbrace then
      match rest.findIdx? (fun d => d = rbrace) with
      | some i =>
        if 1 ≤ i then
          let inner := parseSegs (rest.drop (i + 1)) []
          (acc.reverse, (String.mk (rest.take i), inner.1) :: inner.2)
        else parseSegs rest (c :: acc)
      | none => parseSegs rest (c :: acc)
    else parseSegs rest (c :: acc)
termination_by l.length
decreasing_by
  all_goals simp only [List.length_cons, List.length_drop]
  all_goals omega

/-- Parse a template string. -/
def parseTemplate (tpl : String) : List Char × List (String × List Char) :=
  parseSegs tpl.toList []

/-- Case-insensitive prefix test (the `'i'` regex flag on literal
segments). -/
def leadsWithCI : List Char → List Char → Bool
  | [], _ => true
  | _ :: _, [] => false
  | a :: as, b :: bs => a.toLower = b.toLower && leadsWithCI as bs

/-- Greedy-wildcard matching of `(.+)lit₁(.+)lit₂…`: does some split with
nonempty gaps exist? -/
def looseParts : List (String × List Char) → List Char → Bool
  | [], _ => true
  | (_, lit) :: rest, s =>
    (List.range s.length).any (fun g =>
      leadsWithCI lit (s.drop (g + 1)) &&
        looseParts rest (s.drop (g + 1 + lit.length)))

/-- `new RegExp(lit₀(.+)lit₁…, 'i').test(query)`: unanchored existence of a
match. -/
def looseTest (tpl : List Char × List (String × List Char)) (query : List Char) :
    Bool :=
  (List.range (query.length + 1)).any (fun p =>
    leadsWithCI tpl.1 (query.drop p) && looseParts tpl.2 (query.drop (p + tpl.1.length)))

/-- Lazy capture of the remaining `(?<v>.+?)lit` groups: gaps are tried
shortest-first (regex lazy quantifier), backtracking into longer gaps only
when the rest fails; captures keep the original case. -/
def capParts : List (String × List Char) → List Char →
    Option (List (String × String))
  | [], _ => some []
  | (v, lit) :: rest, s =>
    (List.range s.length).findSome? (fun g =>
      if leadsWithCI lit (s.drop (g + 1)) then
        match capParts rest (s.drop (g + 1 + lit.length)) with
        | some caps => some ((v, String.mk (s.take (g + 1))) :: caps)
        | none => none
      else none)

/-- `text.match(new RegExp(lit₀(?<v₁>.+?)lit₁…, 'i'))`: leftmost match with
lazy groups; `none` when nothing matches. -/
def lazyMatch (tpl : List Char × List (String × List Char)) (text : List Char) :
    Option (List (String × String)) :=
  (List.range (text.length + 1)).findSome? (fun p =>
    if leadsWithCI tpl.1 (text.drop p) then capParts tpl.2 (text.drop (p + tpl.1.length))
    else none)

/-- `extractVariables(text, pattern)` (src/main.js:1435): the named-capture
match against the compiled pattern; a pattern without placeholders has no
named groups (`match.groups` is `undefined`), so the result is `null`. -/
def extractVariables (text : String) (pattern : String) :
    Option (List (String × String)) :=
  let tpl := parseTemplate pattern
  match tpl.2 with
  | [] => none
  | _ :: _ => lazyMatch tpl text.toList

/-- First-occurrence replacement (JS `String.prototype.replace` with a plain
string pattern; the replacement is inserted literally, which is faithful
here since captured values contain no `$`-escapes in the inputs at issue). -/
def replaceFirst : List Char → List Char → List Char → List Char
  | [], _, _ => []
  | c :: t, pat, rep =>
    if leadsWith pat (c :: t) then rep ++ (c :: t).drop pat.length
    else c :: replaceFirst t pat rep

/-- Substitute each captured variable into the conclusion template, in group
order: `conclusion.replace('{' + name + '}', value)` for each entry. -/
def substituteVars (conclusion : String) (vars : List (String × String)) : String :=
  vars.foldl
    (fun c kv =>
      String.mk (replaceFirst c.toList (lbrace :: kv.1.toList ++ [rbrace]) kv.2.toList))
    conclusion

/-! ### Rules, facts and the engine state -/

/-- A reasoning rule (`addRule`, src/main.js:1281). -/
structure Rule where
  pattern : List String
  conclusion : String
  confidence : ℚ
  name : String
  createdAt : ℚ
  usageCount : Nat
deriving DecidableEq, Repr

/-- A stored fact (`addFact`, src/main.js:1291).  The source stores the
JSON string of this record in a `Set`, so deduplication is structural
equality over all four fields. -/
structure Fact where
  content : String
  confidence : ℚ
  timestamp : ℚ
  source : String
deriving DecidableEq, Repr

/-- One step of a reasoning trace: the five step shapes `reason` and its
helpers push (each JS step object's fields become constructor arguments). -/
inductive Step where
  | directFact (content : Fact) (confidence : ℚ)
  | memoryRecall (content : Option JSValue) (relevance confidence : ℚ)
  | ruleApplication (rule : String) (conclusion : String) (confidence : ℚ) (depth : Nat)
  | patternMatching (pattern : String) (result : Option JSValue) (confidence : ℚ)
  | analogicalReasoning (source : Option JSValue) (analogy : String) (confidence : ℚ)
deriving DecidableEq, Repr

/-- A reasoning trace (`reasoningChain`, src/main.js:1307).  `conclusions`
holds JS values: rule and pattern conclusions are strings, a memory-recall
conclusion is the recalled content and can be any value (`none` models
`undefined`, from an episodic result's missing `content`). -/
structure Trace where
  query : String
  startTime : ℚ
  steps : List Step
  conclusions : List (Option JSValue)
  confidence : ℚ
  endTime : ℚ
  duration : ℚ
deriving DecidableEq, Repr

/-- State of `class ReasoningEngine` (src/main.js:1232-1237). -/
structure Engine where
  rules : List (String × Rule)
  facts : List Fact
  inferences : List (String × JSValue)
  reasoningHistory : List Trace
deriving DecidableEq, Repr

/-- `addRule(name, rule)` (src/main.js:1281). -/
def addRule (now : ℚ) (name : String) (pattern : List String)
    (conclusion : String) (confidence : ℚ) (e : Engine) : Engine :=
  let rule : Rule :=
    { pattern := pattern
      conclusion := conclusion
      confidence := confidence
      name := name
      createdAt := now
      usageCount := 0 }
  { e with rules := setKV e.rules name rule }

/-- The five basic rules (`initializeBasicRules`, src/main.js:1244). -/
def addBasicRules (now : ℚ) (e : Engine) : Engine :=
  addRule now "temporal_sequence" ["{A} happens before {B}", "{B} is happening"]
      "{A} has happened" (8/10)
    (addRule now "analogy" ["{A} is like {B}", "{A} has property {P}"]
      "{B} may have property {P}" (6/10)
      (addRule now "causal_chain" ["{A} causes {B}", "{B} causes {C}"]
        "{A} may cause {C}" (7/10)
        (addRule now "modus_tollens" ["if {A} then {B}", "not {B}"]
          "not {A}" (85/100)
          (addRule now "modus_ponens" ["if {A} then {B}", "{A}"]
            "{B}" (9/10) e))))

/-- `new ReasoningEngine(memory)`: empty state plus the basic rules. -/
def Engine.init (now : ℚ) : Engine :=
  addBasicRules now { rules := [], facts := [], inferences := [], reasoningHistory := [] }

/-- `addFact(fact, confidence = 1.0)` (src/main.js:1291): structural-equality
set insertion. -/
def addFact (now : ℚ) (content : String) (confidence : ℚ) (e : Engine) :
    Engine × Fact :=
  let factObj : Fact :=
    { content := content
      confidence := confidence
      timestamp := now
      source := "user_input" }
  ({ e with facts := if factObj ∈ e.facts then e.facts else e.facts ++ [factObj] },
   factObj)

/-- `findRelevantFacts(query)` (src/main.js:1607): facts whose content
contains or is contained in the query (case-insensitively), sorted by
confidence descending. -/
def findRelevantFacts (query : String) (e : Engine) : List Fact :=
  sortDescBy (fun f => f.confidence)
    (e.facts.filter (fun f =>
      inclSub (lowerL f.content.toList) (lowerL query.toList) ||
      inclSub (lowerL query.toList) (lowerL f.content.toList)))

/-- `matchesRule(query, rule)` (src/main.js:1397): any pattern, loosened to
greedy wildcards, matches. -/
def matchesRule (query : String) (rule : Rule) : Bool :=
  rule.pattern.any (fun pat => looseTest (parseTemplate pat) query.toList)

/-- The value `applyRule` returns on success (content, confidence, rule
name). -/
structure RuleConclusion where
  content : String
  confidence : ℚ
  rule : String
deriving DecidableEq, Repr

/-- `applyRule(input, rule)` (src/main.js:1406): extract variables against
the FIRST pattern only; with at least one captured variable, substitute them
into the conclusion template and bump the usage count; otherwise — including
the caught `TypeError` when `pattern[0]` is `undefined` — no conclusion. -/
def applyRule (input : String) (rule : Rule) : Option (RuleConclusion × Rule) :=
  match rule.pattern with
  | [] => none
  | pat0 :: _ =>
    match extractVariables input pat0 with
    | some vars =>
      if 0 < vars.length then
        let concl : RuleConclusion :=
          { content := substituteVars rule.conclusion vars
            confidence := rule.confidence
            rule := rule.name }
        some (concl, { rule with usageCount := rule.usageCount + 1 })
      else none
    | none => none

/-! ### Forward chaining (`applyRules`, src/main.js:1366)

The source recursion is bounded by the `depth >= maxDepth` entry guard; the
embedding carries the equivalent fuel `maxDepth - depth - 1` (the number of
further recursion levels a call may still open), which also exhibits the
termination measure.  Alongside the engine and trace, each call returns the
ghost list of confidences it merged into `trace.confidence` when appending a
new conclusion (the claim C4 compares the final confidence against exactly
these contributions). -/

/-- The `if (conclusion)` body of the rule loop (src/main.js:1372-1387):
append the rule-application step, and when the conclusion is new, append it
and raise the trace confidence by max-combination.  The second component is
the ghost contribution: the confidence merged, when one was. -/
def ruleHitTrace (tr : Trace) (n : String) (concl : RuleConclusion) (depth : Nat) :
    Trace × List ℚ :=
  let tr1 := { tr with steps := tr.steps ++
    [Step.ruleApplication n concl.content concl.confidence depth] }
  if (some (JSValue.str concl.content)) ∈ tr1.conclusions then (tr1, [])
  else
    ({ tr1 with
        conclusions := tr1.conclusions ++ [some (JSValue.str concl.content)]
        confidence := max tr1.confidence concl.confidence },
     [concl.confidence])

/-- The rule loop of one `applyRules` level over the listed rule names. -/
def applyRulesGo : Nat → List String → String → Engine → Trace → Nat → Nat →
    Engine × Trace × List ℚ
  | _, [], _, eng, tr, _, _ => (eng, tr, [])
  | fuel, n :: rest, query, eng, tr, depth, maxDepth =>
    match lookupKV eng.rules n with
    | none => applyRulesGo fuel rest query eng tr depth maxDepth
    | some rule =>
      if matchesRule query rule then
        match applyRule query rule with
        | some (concl, rule') =>
          let eng1 := { eng with rules := setKV eng.rules n rule' }
          let step2 := ruleHitTrace tr n concl depth
          let deep :=
            match fuel with
            | 0 => (eng1, step2.1, ([] : List ℚ))
            | fuel' + 1 =>
              applyRulesGo fuel' (keysOf eng1.rules) concl.content eng1 step2.1
                (depth + 1) maxDepth
          let cont := applyRulesGo fuel rest query deep.1 deep.2.1 depth maxDepth
          (cont.1, cont.2.1, step2.2 ++ deep.2.2 ++ cont.2.2)
        | none => applyRulesGo fuel rest query eng tr depth maxDepth
      else applyRulesGo fuel rest query eng tr depth maxDepth
termination_by fuel names => (fuel, names.length)
decreasing_by
  all_goals simp_wf
  all_goals omega

/-- `applyRules(query, reasoningChain, depth, maxDepth)` (src/main.js:1366). -/
def applyRules (query : String) (eng : Engine) (tr : Trace)
    (depth maxDepth : Nat) : Engine × Trace × List ℚ :=
  if maxDepth ≤ depth then (eng, tr, [])
  else applyRulesGo (maxDepth - depth - 1) (keysOf eng.rules) query eng tr depth maxDepth

/-! ### Canned pattern handlers (`patternMatching`, src/main.js:1450) -/

/-- A handler result `{content, confidence}`; the content can be any JS
value (`provideInstructions` and friends return recalled content raw). -/
structure HandlerResult where
  content : Option JSValue
  confidence : ℚ
deriving DecidableEq, Repr

/-- `explainConcept(concept)` (src/main.js:1543). -/
def explainConcept (now : ℚ) (concept : String) (mem : Memory) :
    HandlerResult × Memory :=
  let r := recallOp now (.str concept) "all" mem
  match r.1 with
  | best :: _ =>
    ({ content := some (JSValue.str (concept ++ " is " ++ jsStr best.content))
       confidence := best.relevance }, r.2)
  | [] =>
    ({ content := some (JSValue.str ("I need more information to explain " ++ concept))
       confidence := 3/10 }, r.2)

/-- `provideInstructions(task)` (src/main.js:1559). -/
def provideInstructions (now : ℚ) (task : String) (mem : Memory) :
    HandlerResult × Memory :=
  let r := recallOp now (.str ("how to " ++ task)) "all" mem
  match r.1 with
  | best :: _ => ({ content := best.content, confidence := best.relevance }, r.2)
  | [] =>
    ({ content := some (JSValue.str ("To " ++ task ++
        ", you might need to break it down into smaller steps"))
       confidence := 2/5 }, r.2)

/-- `explainReason(statement)` (src/main.js:1575). -/
def explainReason (now : ℚ) (statement : String) (mem : Memory) :
    HandlerResult × Memory :=
  let r := recallOp now (.str ("because " ++ statement)) "all" mem
  match r.1 with
  | best :: _ => ({ content := best.content, confidence := best.relevance }, r.2)
  | [] =>
    ({ content := some (JSValue.str ("The reason for " ++ statement ++
        " might be related to cause and effect"))
       confidence := 3/10 }, r.2)

/-- `provideTimeInfo(event)` (src/main.js:1591). -/
def provideTimeInfo (now : ℚ) (event : String) (mem : Memory) :
    HandlerResult × Memory :=
  let r := recallOp now (.str ("when " ++ event)) "all" mem
  match r.1 with
  | best :: _ => ({ content := best.content, confidence := best.relevance }, r.2)
  | [] =>
    ({ content := some (JSValue.str ("I don't have specific timing information about " ++ event))
       confidence := 1/5 }, r.2)

/-- One canned pattern `/pre (.+)/i`: leftmost occurrence of the
case-insensitive literal `pre` followed by a nonempty greedy capture to the
end of the string. -/
def matchSimplePat (pre : List Char) (q : List Char) : Option String :=
  (List.range (q.length + 1)).findSome? (fun p =>
    if leadsWithCI pre (q.drop p) ∧ 0 < (q.drop (p + pre.length)).length then
      some (String.mk (q.drop (p + pre.length)))
    else none)

/-- Append one pattern-matching step and merge the handler result into the
conclusions with max-confidence combination; returns the merged confidences
as the ghost contribution list. -/
def mergePattern (tr : Trace) (patSrc : String) (result : HandlerResult) :
    Trace × List ℚ :=
  let tr1 := { tr with steps := tr.steps ++
    [Step.patternMatching patSrc result.content result.confidence] }
  if result.content ∈ tr1.conclusions then (tr1, [])
  else
    ({ tr1 with
        conclusions := tr1.conclusions ++ [result.content]
        confidence := max tr1.confidence result.confidence },
     [result.confidence])

/-- `patternMatching(query, reasoningChain)` (src/main.js:1450): the four
patterns are tried in order and only the first matching one runs (`break`). -/
def patternMatchingStep (now : ℚ) (query : String) (mem : Memory) (tr : Trace) :
    Trace × Memory × List ℚ :=
  match matchSimplePat "what is ".toList query.toList with
  | some concept =>
    let hr := explainConcept now concept mem
    let merged := mergePattern tr "what is (.+)" hr.1
    (merged.1, hr.2, merged.2)
  | none =>
    match matchSimplePat "how to ".toList query.toList with
    | some task =>
      let hr := provideInstructions now task mem
      let merged := mergePattern tr "how to (.+)" hr.1
      (merged.1, hr.2, merged.2)
    | none =>
      match matchSimplePat "why ".toList query.toList with
      | some statement =>
        let hr := explainReason now statement mem
        let merged := mergePattern tr "why (.+)" hr.1
        (merged.1, hr.2, merged.2)
      | none =>
        match matchSimplePat "when ".toList query.toList with
        | some event =>
          let hr := provideTimeInfo now event mem
          let merged := mergePattern tr "when (.+)" hr.1
          (merged.1, hr.2, merged.2)
        | none => (tr, mem, [])

/-! ### Analogical reasoning (`analogicalReasoning`, src/main.js:1496) -/

/-- A detected analogy. -/
structure Analogy where
  content : String
  confidence : ℚ
deriving DecidableEq, Repr

/-- `findAnalogy(source, target)` (src/main.js:1523): shared tokens longer
than 3 characters.  `target.toLowerCase()` throws a `TypeError` when the
target is not a string — and the episodic search results this is called on
have no `content` field, so the target is `undefined` (`none`). -/
def findAnalogy (source : String) (target : Option JSValue) :
    Except Unit (Option Analogy) :=
  match target with
  | some (.str t) =>
    let sourceTokens := splitSp (lowerL source.toList)
    let targetTokens := splitSp (lowerL t.toList)
    let commonTokens := sourceTokens.filter
      (fun tok => targetTokens.contains tok && 3 < tok.length)
    if 0 < commonTokens.length then
      Except.ok (some
        { content := "Similar to: " ++ t
          confidence := (commonTokens.length : ℚ) /
            ((max sourceTokens.length targetTokens.length : Nat) : ℚ) })
    else Except.ok none
  | _ => Except.error ()

/-- `conclusions.some(c => c.includes(analogy.content))`: `c.includes` throws
when the conclusion element is not a string. -/
def anyConclIncl : List (Option JSValue) → String → Except Unit Bool
  | [], _ => .ok false
  | c :: rest, s =>
    match c with
    | some (.str cs) =>
      if inclSub cs.toList s.toList then .ok true else anyConclIncl rest s
    | _ => .error ()

/-- The loop body of `analogicalReasoning` over the selected episodic
results. -/
def analogicalLoop (query : String) :
    List SearchResult → Trace → List ℚ → Except Unit (Trace × List ℚ)
  | [], tr, acc => .ok (tr, acc)
  | sim :: rest, tr, acc =>
    match findAnalogy query sim.content with
    | .error e => .error e
    | .ok none => analogicalLoop query rest tr acc
    | .ok (some an) =>
      let tr1 := { tr with steps := tr.steps ++
        [Step.analogicalReasoning sim.content an.content an.confidence] }
      match anyConclIncl tr1.conclusions an.content with
      | .error e => .error e
      | .ok true => analogicalLoop query rest tr1 acc
      | .ok false =>
        let tr2 :=
          { tr1 with
            conclusions := tr1.conclusions ++
              [some (JSValue.str ("Based on analogy: " ++ an.content))]
            confidence := max tr1.confidence (an.confidence * (7/10)) }
        analogicalLoop query rest tr2 (acc ++ [an.confidence * (7/10)])

/-- `analogicalReasoning(query, reasoningChain)` (src/main.js:1496): top-3
episodic recalls with relevance > 0.5, then the analogy loop. -/
def analogicalStep (now : ℚ) (query : String) (mem : Memory) (tr : Trace) :
    Except Unit (Trace × Memory × List ℚ) :=
  let r := recallOp now (.str query) "episodic" mem
  let similarMemories := (r.1.filter (fun s => decide (1/2 < s.relevance))).take 3
  match analogicalLoop query similarMemories tr [] with
  | .error e => .error e
  | .ok (tr, cs) => .ok (tr, r.2, cs)

/-! ### The orchestrator (`reason`, src/main.js:1304) -/

/-- The fresh `reasoningChain` record `reason` builds first
(src/main.js:1307-1315). -/
def initialTrace (now : ℚ) (query : String) : Trace :=
  { query := query
    startTime := now
    steps := []
    conclusions := []
    confidence := 0
    endTime := now
    duration := 0 }

/-- Step 1 of `reason` (src/main.js:1318-1330): the best direct fact, if
any, becomes a step and a conclusion, and its confidence is *assigned* to
the chain.  The second component is the ghost contribution list. -/
def directFactPhase (query : String) (eng : Engine) (tr0 : Trace) :
    Trace × List ℚ :=
  match findRelevantFacts query eng with
  | f :: _ =>
    ({ tr0 with
        steps := tr0.steps ++ [Step.directFact f f.confidence]
        conclusions := tr0.conclusions ++ [some (JSValue.str f.content)]
        confidence := f.confidence }, [f.confidence])
  | [] => (tr0, ([] : List ℚ))

/-- Step 2 of `reason` (src/main.js:1333-1347): the best memory recall
becomes a step; it becomes a conclusion (with `relevance * importance`
*assigned* as the confidence) only when no conclusion exists yet. -/
def memoryPhase (results : List SearchResult) (tr : Trace) : Trace × List ℚ :=
  match results with
  | best :: _ =>
    let tr1 := { tr with steps := tr.steps ++
      [Step.memoryRecall best.content best.relevance best.importance] }
    if tr1.conclusions.length = 0 then
      ({ tr1 with
          conclusions := tr1.conclusions ++ [best.content]
          confidence := best.relevance * best.importance },
       [best.relevance * best.importance])
    else (tr1, ([] : List ℚ))
  | [] => (tr, ([] : List ℚ))

/-- `reason(query, maxDepth = 3)`: build the trace through the five phases
(direct facts, memory recall, forward chaining, canned patterns, analogies),
then stamp the times and append the trace to the bounded history.  All
`Date.now()` reads are modelled by the single `now`.  The ghost `List ℚ`
collects, in order, every confidence merged into `trace.confidence` by a
step that appended a conclusion. -/
def reason (now : ℚ) (query : String) (mem : Memory) (eng : Engine)
    (maxDepth : Nat) : Except Unit (Trace × Memory × Engine × List ℚ) :=
  let tr0 := initialTrace now query
  let ph1 := directFactPhase query eng tr0
  let rec1 := recallOp now (.str query) "all" mem
  let ph2 := memoryPhase rec1.1 ph1.1
  let ph3 := applyRules query eng ph2.1 0 maxDepth
  let ph4 := patternMatchingStep now query rec1.2 ph3.2.1
  match analogicalStep now query ph4.2.1 ph4.1 with
  | .error e => .error e
  | .ok (tr5, mem5, cs5) =>
    let tr6 := { tr5 with endTime := now, duration := now - tr5.startTime }
    let hist := ph3.1.reasoningHistory ++ [tr6]
    let eng6 := { ph3.1 with reasoningHistory :=
      if 100 < hist.length then hist.tail else hist }
    .ok (tr6, mem5, eng6, ph1.2 ++ ph2.2 ++ ph3.2.2 ++ ph4.2.2 ++ cs5)

/-! ### Specification-side definitions (for refinement claims) -/

/-- The relevance algorithm as the specification and claim C6 word it:
split both strings into lowercase token lists; a query token matches when
some content token contains it as a substring or vice versa; the score is
`matches / queryTokenCount`, `0` if the query has no tokens, boosted to
`min(similarity + 0.5, 1.0)` when the content contains the full query; `0`
(without error) when either input is not a string.  To be compared with the
source-side `calculateRelevance`. -/
def calculateRelevanceSpec (query content : JSValue) : ℚ :=
  match query, content with
  | .str q, .str c =>
    let queryTokens := splitSp (lowerL q.toList)
    let contentTokens := splitSp (lowerL c.toList)
    if queryTokens.length = 0 then 0
    else
      let matchCount :=
        queryTokens.countP (fun token =>
          contentTokens.any (fun cToken => inclSub cToken token || inclSub token cToken))
      let similarity : ℚ := (matchCount : ℚ) / (queryTokens.length : ℚ)
      if inclSub (lowerL c.toList) (lowerL q.toList) then min (similarity + 1/2) 1
      else similarity
  | _, _ => 0

/-! ### Concrete states used by witnesses and counterexamples -/

/-- A memory at short-term capacity 1 holding one item of importance `0.8`
(content `"h"`, id `"a"`), with room in long-term storage. -/
def mC2 : Memory :=
  { Memory.init 1 5 5 with shortTerm := [⟨JSValue.str "h", 0, 8/10, "a"⟩] }

/-- The same buffer but with `longTermCapacity = 0` (a value `load` can
install, since `Object.assign(this, data.config)` bypasses the constructor's
`||` defaulting). -/
def mC2cex : Memory :=
  { Memory.init 1 5 5 with
    longTermCapacity := 0
    shortTerm := [⟨JSValue.str "h", 0, 8/10, "a"⟩] }

/-- A memory holding one consolidated long-term item of importance `0.5`
last accessed at time `0`. -/
def mC10 : Memory :=
  { Memory.init 5 5 5 with
    longTerm := [("k", ⟨JSValue.str "v", 1/2, 0, 0, 0, true⟩)]
    memoryWeights := [("k", 1/2)] }

/-- `n` successive `recall` calls with the same query (only the mutated
state is kept, as when a caller ignores the returned list). -/
def recallN (n : Nat) (now : ℚ) (query : JSValue) (memoryType : String)
    (m : Memory) : Memory :=
  match n with
  | 0 => m
  | n + 1 => recallN n now query memoryType (recallOp now query memoryType m).2

/-- A fresh store after `addToLongTerm("k", "hello world", 0.5)`. -/
def mC8 : Memory :=
  (addToLongTerm 0 "k" (JSValue.str "hello world") (1/2) (Memory.init 5 5 5)).2

/-- The `modus_ponens` rule exactly as `initializeBasicRules` installs it
(src/main.js:1246). -/
def modusPonensRule : Rule :=
  { pattern := ["if {A} then {B}", "{A}"]
    conclusion := "{B}"
    confidence := 9/10
    name := "modus_ponens"
    createdAt := 0
    usageCount := 0 }

/-- A rule with negative confidence — nothing prevents `addRule` (or `load`)
from storing one: pattern `"start {A}"`, conclusion `"end {A}"`. -/
def negRule : Rule :=
  { pattern := ["start {A}"]
    conclusion := "end {A}"
    confidence := -(1/2)
    name := "r"
    createdAt := 0
    usageCount := 0 }

/-- An engine holding only `negRule`, no facts. -/
def engC4 : Engine :=
  { rules := [("r", negRule)], facts := [], inferences := [], reasoningHistory := [] }

/-! ## Lemmas: the stable sort -/

/-- Inserting with `insertByLe` permutes consing. -/
theorem insertByLe_perm {α : Type} (le : α → α → Bool) (x : α) (l : List α) :
    (insertByLe le x l).Perm (x :: l) := by
  induction l with
  | nil => simp [insertByLe]
  | cons y ys ih =>
    simp only [insertByLe]
    split
    · exact List.Perm.refl _
    · exact (ih.cons y).trans (List.Perm.swap x y ys)

/-- `sortByLe` permutes its input. -/
theorem sortByLe_perm {α : Type} (le : α → α → Bool) (l : List α) :
    (sortByLe le l).Perm l := by
  induction l with
  | nil => simp [sortByLe]
  | cons x xs ih =>
    exact (insertByLe_perm le x (sortByLe le xs)).trans (ih.cons x)

/-- `insertByLe` preserves sortedness for a total transitive `le`. -/
theorem insertByLe_pairwise {α : Type} {le : α → α → Bool}
    (htot : ∀ a b, le a b = false → le b a = true)
    (htrans : ∀ a b c, le a b = true → le b c = true → le a c = true)
    (x : α) (l : List α) (hl : l.Pairwise (fun a b => le a b = true)) :
    (insertByLe le x l).Pairwise (fun a b => le a b = true) := by
  induction l with
  | nil => simp [insertByLe]
  | cons y ys ih =>
    rcases List.pairwise_cons.1 hl with ⟨hy, hys⟩
    simp only [insertByLe]
    by_cases h : le x y = true
    · rw [if_pos h]
      refine List.pairwise_cons.2 ⟨?_, hl⟩
      intro z hz
      rcases List.mem_cons.1 hz with rfl | hz'
      · exact h
      · exact htrans x y z h (hy z hz')
    · rw [if_neg h]
      refine List.pairwise_cons.2 ⟨?_, ih hys⟩
      intro z hz
      have hxy : le x y = false := by simpa using h
      rcases List.mem_cons.1 ((insertByLe_perm le x ys).mem_iff.1 hz) with hzx | hz''
      · rw [hzx]; exact htot x y hxy
      · exact hy z hz''

/-- `sortByLe` sorts, for a total transitive `le`. -/
theorem sortByLe_pairwise {α : Type} {le : α → α → Bool}
    (htot : ∀ a b, le a b = false → le b a = true)
    (htrans : ∀ a b c, le a b = true → le b c = true → le a c = true)
    (l : List α) :
    (sortByLe le l).Pairwise (fun a b => le a b = true) := by
  induction l with
  | nil => simp [sortByLe]
  | cons x xs ih => exact insertByLe_pairwise htot htrans x (sortByLe le xs) ih

/-- `sortDescBy` output is pairwise descending in the key. -/
theorem sortDescBy_pairwise {α : Type} (key : α → ℚ) (l : List α) :
    (sortDescBy key l).Pairwise (fun a b => key b ≤ key a) := by
  have h := @sortByLe_pairwise α (fun a b : α => decide (key b ≤ key a))
    (fun a b hab => by
      simp only [decide_eq_false_iff_not, not_le] at hab
      simpa using le_of_lt hab)
    (fun a b c hab hbc => by
      simp only [decide_eq_true_eq] at hab hbc ⊢
      exact hbc.trans hab) l
  exact h.imp (fun hab => by simpa using hab)

/-- `sortAscBy` permutes its input. -/
theorem sortAscBy_perm {α : Type} (key : α → ℚ) (l : List α) :
    (sortAscBy key l).Perm l := sortByLe_perm _ l

/-- `sortDescBy` permutes its input. -/
theorem sortDescBy_perm {α : Type} (key : α → ℚ) (l : List α) :
    (sortDescBy key l).Perm l := sortByLe_perm _ l

/-! ## Lemmas: association-list maps -/

/-- `keysOf` on `[]`. -/
theorem keysOf_nil {β : Type} : keysOf ([] : List (String × β)) = [] := rfl

/-- `keysOf` on a cons. -/
theorem keysOf_cons {β : Type} (e : String × β) (rest : List (String × β)) :
    keysOf (e :: rest) = e.1 :: keysOf rest := rfl

/-- `keysOf` distributes over append. -/
theorem keysOf_append {β : Type} (l1 l2 : List (String × β)) :
    keysOf (l1 ++ l2) = keysOf l1 ++ keysOf l2 := by
  simp [keysOf]

/-- `keysOf` has the map's length. -/
theorem keysOf_length {β : Type} (mp : List (String × β)) :
    (keysOf mp).length = mp.length := by
  simp [keysOf]

/-- A lookup misses exactly when the key is absent. -/
theorem lookupKV_eq_none {β : Type} (mp : List (String × β)) (k : String) :
    lookupKV mp k = none ↔ k ∉ keysOf mp := by
  induction mp with
  | nil => simp [lookupKV, keysOf_nil]
  | cons e rest ih =>
    obtain ⟨k', v⟩ := e
    by_cases h : k' = k
    · subst h
      simp [lookupKV, keysOf_cons]
    · simp [lookupKV, keysOf_cons, h, ih, Ne.symm h]

/-- Setting an absent key appends the pair. -/
theorem setKV_of_not_mem {β : Type} (mp : List (String × β)) (k : String) (v : β)
    (h : k ∉ keysOf mp) : setKV mp k v = mp ++ [(k, v)] := by
  induction mp with
  | nil => rfl
  | cons e rest ih =>
    obtain ⟨k', w⟩ := e
    have hne : k' ≠ k := by
      intro hh
      exact h (by simp [keysOf_cons, hh])
    have hrest : k ∉ keysOf rest := by
      intro hh
      exact h (by simp [keysOf_cons]; exact Or.inr hh)
    simp [setKV, hne, ih hrest]

/-- Setting a present key keeps the key list. -/
theorem keysOf_setKV_of_mem {β : Type} (mp : List (String × β)) (k : String) (v : β)
    (h : k ∈ keysOf mp) : keysOf (setKV mp k v) = keysOf mp := by
  induction mp with
  | nil => simp [keysOf_nil] at h
  | cons e rest ih =>
    obtain ⟨k', w⟩ := e
    by_cases hk : k' = k
    · subst hk
      simp [setKV, keysOf_cons]
    · have h' : k ∈ keysOf rest := by
        rcases (by simpa [keysOf_cons] using h : k = k' ∨ k ∈ keysOf rest) with rfl | hh
        · exact absurd rfl (Ne.symm hk)
        · exact hh
      simp [setKV, hk, keysOf_cons, ih h']

/-- A set key reads back its value. -/
theorem lookupKV_setKV_self {β : Type} (mp : List (String × β)) (k : String) (v : β) :
    lookupKV (setKV mp k v) k = some v := by
  induction mp with
  | nil => simp [setKV, lookupKV]
  | cons e rest ih =>
    obtain ⟨k', w⟩ := e
    by_cases hk : k' = k
    · subst hk; simp [setKV, lookupKV]
    · simp [setKV, hk, lookupKV, ih]

/-- Setting one key leaves other lookups unchanged. -/
theorem lookupKV_setKV_ne {β : Type} (mp : List (String × β)) (k k' : String) (v : β)
    (h : k' ≠ k) : lookupKV (setKV mp k v) k' = lookupKV mp k' := by
  induction mp with
  | nil => simp [setKV, lookupKV, Ne.symm h]
  | cons e rest ih =>
    obtain ⟨k0, w⟩ := e
    by_cases hk : k0 = k
    · subst hk
      have h0 : ¬k0 = k' := fun hh => h hh.symm
      simp [setKV, lookupKV, h0]
    · simp [setKV, hk, lookupKV, ih]

/-- `setKV` grows the map by at most one entry. -/
theorem length_setKV_le {β : Type} (mp : List (String × β)) (k : String) (v : β) :
    (setKV mp k v).length ≤ mp.length + 1 := by
  induction mp with
  | nil => simp [setKV]
  | cons e rest ih =>
    obtain ⟨k', w⟩ := e
    by_cases hk : k' = k
    · simp [setKV, hk]
    · simpa [setKV, hk] using ih

/-- `setKV` keeps the keys duplicate-free. -/
theorem nodup_keysOf_setKV {β : Type} (mp : List (String × β)) (k : String) (v : β)
    (h : (keysOf mp).Nodup) : (keysOf (setKV mp k v)).Nodup := by
  by_cases hk : k ∈ keysOf mp
  · rw [keysOf_setKV_of_mem mp k v hk]; exact h
  · rw [setKV_of_not_mem mp k v hk, keysOf_append]
    simp only [keysOf_cons, keysOf_nil, List.nodup_append]
    exact ⟨h, List.nodup_singleton k, fun a ha hb => hk ((List.mem_singleton.1 hb) ▸ ha)⟩

/-- Deleting a key erases it from the key list. -/
theorem keysOf_delKV {β : Type} (mp : List (String × β)) (k : String) :
    keysOf (delKV mp k) = (keysOf mp).erase k := by
  induction mp with
  | nil => simp [delKV, keysOf_nil]
  | cons e rest ih =>
    obtain ⟨k', w⟩ := e
    by_cases hk : k' = k
    · subst hk
      simp [delKV, keysOf_cons, List.erase_cons]
    · simp [delKV, hk, keysOf_cons, List.erase_cons, ih]

/-- Folding deletions of distinct present keys shrinks the map by their
number. -/
theorem length_foldl_delKV {β : Type} :
    ∀ (ks : List String) (mp : List (String × β)),
    (keysOf mp).Nodup → ks.Nodup → (∀ k ∈ ks, k ∈ keysOf mp) →
    (ks.foldl (fun acc k => delKV acc k) mp).length + ks.length = mp.length := by
  intro ks
  induction ks with
  | nil => intro mp _ _ _; simp
  | cons k ks ih =>
    intro mp hmp hks hsub
    have hkmem : k ∈ keysOf mp := hsub k (by simp)
    have hlen : (delKV mp k).length + 1 = mp.length := by
      have h1 : (keysOf (delKV mp k)).length = (keysOf mp).length - 1 := by
        rw [keysOf_delKV]; exact List.length_erase_of_mem hkmem
      have h2 : 0 < (keysOf mp).length :=
        List.length_pos.2 (List.ne_nil_of_mem hkmem)
      rw [keysOf_length, keysOf_length] at h1
      rw [keysOf_length] at h2
      omega
    have hnodup' : (keysOf (delKV mp k)).Nodup := by
      rw [keysOf_delKV]; exact hmp.erase k
    have hsub' : ∀ k' ∈ ks, k' ∈ keysOf (delKV mp k) := by
      intro k' hk'
      have hne : k' ≠ k := by
        rcases List.nodup_cons.1 hks with ⟨hnot, _⟩
        intro hh; exact hnot (hh ▸ hk')
      rw [keysOf_delKV]
      exact (List.mem_erase_of_ne hne).2 (hsub k' (by simp [hk']))
    have := ih (delKV mp k) hnodup' (List.nodup_cons.1 hks).2 hsub'
    simp only [List.foldl_cons, List.length_cons]
    omega

/-- Folding deletions keeps the keys duplicate-free. -/
theorem nodup_foldl_delKV {β : Type} :
    ∀ (ks : List String) (mp : List (String × β)), (keysOf mp).Nodup →
    (keysOf (ks.foldl (fun acc k => delKV acc k) mp)).Nodup := by
  intro ks
  induction ks with
  | nil => intro mp h; exact h
  | cons k ks ih =>
    intro mp h
    simp only [List.foldl_cons]
    exact ih (delKV mp k) (by rw [keysOf_delKV]; exact h.erase k)

/-! ## Lemmas: capacity management and the capacity invariant -/

/-- The `longTerm` store after `manageLongTermCapacity`'s removal loop is the
fold of plain key deletions. -/
theorem foldl_deleteLTKey_longTerm (ks : List (String × LTItem)) (m : Memory) :
    (ks.foldl (fun mm e => deleteLTKey mm e.1) m).longTerm
      = (ks.map Prod.fst).foldl (fun acc k => delKV acc k) m.longTerm := by
  induction ks generalizing m with
  | nil => rfl
  | cons e ks ih =>
    simp only [List.foldl_cons, List.map_cons]
    rw [ih]
    rfl

/-- The removal loop touches neither the other tiers nor the configuration. -/
theorem foldl_deleteLTKey_frame (ks : List (String × LTItem)) (m : Memory) :
    (ks.foldl (fun mm e => deleteLTKey mm e.1) m).shortTerm = m.shortTerm ∧
    (ks.foldl (fun mm e => deleteLTKey mm e.1) m).episodic = m.episodic ∧
    (ks.foldl (fun mm e => deleteLTKey mm e.1) m).shortTermCapacity = m.shortTermCapacity ∧
    (ks.foldl (fun mm e => deleteLTKey mm e.1) m).longTermCapacity = m.longTermCapacity ∧
    (ks.foldl (fun mm e => deleteLTKey mm e.1) m).episodicCapacity = m.episodicCapacity := by
  induction ks generalizing m with
  | nil => exact ⟨rfl, rfl, rfl, rfl, rfl⟩
  | cons e ks ih =>
    simp only [List.foldl_cons]
    exact ih (deleteLTKey m e.1)

/-- `manageLongTermCapacity` touches only the long-term store and its side
maps. -/
theorem manage_frame (m : Memory) :
    (manageLongTermCapacity m).shortTerm = m.shortTerm ∧
    (manageLongTermCapacity m).episodic = m.episodic ∧
    (manageLongTermCapacity m).shortTermCapacity = m.shortTermCapacity ∧
    (manageLongTermCapacity m).longTermCapacity = m.longTermCapacity ∧
    (manageLongTermCapacity m).episodicCapacity = m.episodicCapacity := by
  by_cases hle : m.longTerm.length ≤ m.longTermCapacity
  · simp [manageLongTermCapacity, hle]
  · simp only [manageLongTermCapacity, if_neg hle]
    exact foldl_deleteLTKey_frame _ _

/-- `manageLongTermCapacity` always leaves the store within capacity (given
duplicate-free keys) and keeps the keys duplicate-free. -/
theorem manage_spec (m : Memory) (h : (keysOf m.longTerm).Nodup) :
    (manageLongTermCapacity m).longTerm.length ≤ m.longTermCapacity ∧
    (keysOf (manageLongTermCapacity m).longTerm).Nodup := by
  by_cases hle : m.longTerm.length ≤ m.longTermCapacity
  · simp only [manageLongTermCapacity, if_pos hle]
    exact ⟨hle, h⟩
  · simp only [manageLongTermCapacity, if_neg hle]
    have hperm : (keysOf (sortAscBy compositeKey m.longTerm)).Perm (keysOf m.longTerm) :=
      (sortAscBy_perm compositeKey m.longTerm).map Prod.fst
    have hsortlen : (sortAscBy compositeKey m.longTerm).length = m.longTerm.length :=
      (sortAscBy_perm compositeKey m.longTerm).length_eq
    set n := m.longTerm.length - m.longTermCapacity with hn
    set toRemove := (sortAscBy compositeKey m.longTerm).take n with htr
    have hkeys_tr : toRemove.map Prod.fst = (keysOf (sortAscBy compositeKey m.longTerm)).take n := by
      simp [htr, keysOf, List.map_take]
    have hnodup_tr : (toRemove.map Prod.fst).Nodup := by
      rw [hkeys_tr]
      exact (List.take_sublist _ _).nodup (hperm.nodup_iff.2 h)
    have hsub_tr : ∀ k ∈ toRemove.map Prod.fst, k ∈ keysOf m.longTerm := by
      intro k hk
      rw [hkeys_tr] at hk
      exact hperm.subset (List.take_subset _ _ hk)
    have hlen := length_foldl_delKV (toRemove.map Prod.fst) m.longTerm h hnodup_tr hsub_tr
    have hLT := foldl_deleteLTKey_longTerm toRemove m
    have htrlen : (toRemove.map Prod.fst).length = n := by
      have : toRemove.length = min n (sortAscBy compositeKey m.longTerm).length := by
        simp [htr]
      simp only [List.length_map, this, hsortlen]
      omega
    refine ⟨?_, ?_⟩
    · rw [hLT]
      rw [htrlen] at hlen
      omega
    · rw [hLT]
      exact nodup_foldl_delKV _ _ h

/-- `addToLongTerm` changes no configuration field and no other tier. -/
theorem addToLongTerm_frame (now : ℚ) (key : String) (value : JSValue)
    (importance : ℚ) (m : Memory) :
    (addToLongTerm now key value importance m).2.shortTermCapacity = m.shortTermCapacity ∧
    (addToLongTerm now key value importance m).2.longTermCapacity = m.longTermCapacity ∧
    (addToLongTerm now key value importance m).2.episodicCapacity = m.episodicCapacity ∧
    (addToLongTerm now key value importance m).2.shortTerm = m.shortTerm ∧
    (addToLongTerm now key value importance m).2.episodic = m.episodic := by
  obtain ⟨hC, hD, hE, hF, hG⟩ := manage_frame (setLongTerm now key value importance m)
  exact ⟨hE, hF, hG, hC, hD⟩

/-- `addToLongTerm` restores the capacity invariant unconditionally. -/
theorem addToLongTerm_capInv (now : ℚ) (key : String) (value : JSValue)
    (importance : ℚ) (m : Memory) (h : capInv m) :
    capInv (addToLongTerm now key value importance m).2 := by
  obtain ⟨h1, h2, h3, h4⟩ := h
  have hset : (keysOf (setLongTerm now key value importance m).longTerm).Nodup := by
    simpa [setLongTerm] using nodup_keysOf_setKV m.longTerm key _ h4
  obtain ⟨hA, hB⟩ := manage_spec (setLongTerm now key value importance m) hset
  obtain ⟨hE, hF, hG, hC, hD⟩ := addToLongTerm_frame now key value importance m
  refine ⟨?_, ?_, ?_, hB⟩
  · rw [hC, hE]; exact h1
  · rw [hF]; exact hA
  · rw [hD, hG]; exact h3

/-- `consolidateToLongTerm` preserves the capacity invariant. -/
theorem consolidateToLongTerm_capInv (now : ℚ) (it : MemoryItem) (m : Memory)
    (h : capInv m) : capInv (consolidateToLongTerm now it m) := by
  obtain ⟨a, b, c, d⟩ :=
    addToLongTerm_capInv now ("consolidated_" ++ it.id) it.content it.importance m h
  simp only [consolidateToLongTerm]
  set m1 := (addToLongTerm now ("consolidated_" ++ it.id) it.content it.importance m).2 with hm1
  cases hl : lookupKV m1.longTerm ("consolidated_" ++ it.id) with
  | none => simp only [hl]; exact ⟨a, b, c, d⟩
  | some itm =>
    simp only [hl]
    have hmem : ("consolidated_" ++ it.id) ∈ keysOf m1.longTerm := by
      by_contra hno
      rw [(lookupKV_eq_none m1.longTerm _).2 hno] at hl
      cases hl
    have hkeys := keysOf_setKV_of_mem m1.longTerm ("consolidated_" ++ it.id)
      { itm with consolidated := true } hmem
    have hlen : (setKV m1.longTerm ("consolidated_" ++ it.id)
        { itm with consolidated := true }).length = m1.longTerm.length := by
      have := congrArg List.length hkeys
      rwa [keysOf_length, keysOf_length] at this
    refine ⟨a, ?_, c, ?_⟩
    · show (setKV m1.longTerm _ _).length ≤ m1.longTermCapacity
      rw [hlen]
      exact b
    · show (keysOf (setKV m1.longTerm _ _)).Nodup
      rw [hkeys]
      exact d

/-- `consolidateToLongTerm` changes no configuration field, and not the
short-term or episodic tier. -/
theorem consolidateToLongTerm_frame (now : ℚ) (it : MemoryItem) (m : Memory) :
    (consolidateToLongTerm now it m).shortTermCapacity = m.shortTermCapacity ∧
    (consolidateToLongTerm now it m).longTermCapacity = m.longTermCapacity ∧
    (consolidateToLongTerm now it m).episodicCapacity = m.episodicCapacity ∧
    (consolidateToLongTerm now it m).shortTerm = m.shortTerm ∧
    (consolidateToLongTerm now it m).episodic = m.episodic := by
  obtain ⟨hE, hF, hG, hC, hD⟩ :=
    addToLongTerm_frame now ("consolidated_" ++ it.id) it.content it.importance m
  simp only [consolidateToLongTerm]
  set m1 := (addToLongTerm now ("consolidated_" ++ it.id) it.content it.importance m).2 with hm1
  cases hl : lookupKV m1.longTerm ("consolidated_" ++ it.id) with
  | none => simp only [hl]; exact ⟨hE, hF, hG, hC, hD⟩
  | some itm => simp only [hl]; exact ⟨hE, hF, hG, hC, hD⟩

/-- `addToShortTerm` preserves the capacity invariant. -/
theorem addToShortTerm_capInv (now : ℚ) (newId : String) (item : JSValue)
    (m : Memory) (h : capInv m) : capInv (addToShortTerm now newId item m).2 := by
  obtain ⟨h1, h2, h3, h4⟩ := h
  cases hm : m.shortTerm with
  | nil =>
    simp only [addToShortTerm, hm, List.nil_append]
    by_cases hover : m.shortTermCapacity < 1
    · simp only [List.length_singleton, if_pos hover]
      by_cases himp : (7 : ℚ)/10 < calculateImportance item
      · simp only [if_pos himp]
        exact consolidateToLongTerm_capInv now _ _ ⟨by simp, h2, h3, h4⟩
      · simp only [if_neg himp]
        exact ⟨by simp, h2, h3, h4⟩
    · simp only [List.length_singleton, if_neg hover]
      exact ⟨by simpa using Nat.le_of_not_lt hover, h2, h3, h4⟩
  | cons a as =>
    rw [hm] at h1
    simp only [addToShortTerm, hm, List.cons_append]
    by_cases hover : m.shortTermCapacity < (a :: (as ++ [⟨item, now, calculateImportance item, newId⟩])).length
    · simp only [if_pos hover]
      have hrest : (as ++ [(⟨item, now, calculateImportance item, newId⟩ : MemoryItem)]).length
          ≤ m.shortTermCapacity := by
        simp only [List.length_append, List.length_singleton]
        simp only [List.length_cons] at h1
        omega
      by_cases himp : (7 : ℚ)/10 < a.importance
      · simp only [if_pos himp]
        exact consolidateToLongTerm_capInv now _ _ ⟨hrest, h2, h3, h4⟩
      · simp only [if_neg himp]
        exact ⟨hrest, h2, h3, h4⟩
    · simp only [if_neg hover]
      exact ⟨by simpa using Nat.le_of_not_lt hover, h2, h3, h4⟩

/-- `addToShortTerm` changes no capacity field or episodic tier. -/
theorem addToShortTerm_frame (now : ℚ) (newId : String) (item : JSValue)
    (m : Memory) :
    (addToShortTerm now newId item m).2.shortTermCapacity = m.shortTermCapacity ∧
    (addToShortTerm now newId item m).2.longTermCapacity = m.longTermCapacity ∧
    (addToShortTerm now newId item m).2.episodicCapacity = m.episodicCapacity ∧
    (addToShortTerm now newId item m).2.episodic = m.episodic := by
  cases hm : m.shortTerm with
  | nil =>
    simp only [addToShortTerm, hm, List.nil_append]
    by_cases hover : m.shortTermCapacity < 1
    · simp only [List.length_singleton, if_pos hover]
      by_cases himp : (7 : ℚ)/10 < calculateImportance item
      · simp only [if_pos himp]
        obtain ⟨hE, hF, hG, _, hD⟩ := consolidateToLongTerm_frame now _ _
        exact ⟨hE, hF, hG, hD⟩
      · simp only [if_neg himp]
        simp
    · simp only [List.length_singleton, if_neg hover]
      simp
  | cons a as =>
    simp only [addToShortTerm, hm, List.cons_append]
    by_cases hover : m.shortTermCapacity < (a :: (as ++ [⟨item, now, calculateImportance item, newId⟩])).length
    · simp only [if_pos hover]
      by_cases himp : (7 : ℚ)/10 < a.importance
      · simp only [if_pos himp]
        obtain ⟨hE, hF, hG, _, hD⟩ := consolidateToLongTerm_frame now _ _
        exact ⟨hE, hF, hG, hD⟩
      · simp only [if_neg himp]
        simp
    · simp only [if_neg hover]
      simp

/-- A trimmed push keeps the list length. -/
theorem tail_append_singleton_length {α : Type} (l : List α) (x : α) :
    (l ++ [x]).tail.length = l.length := by
  cases l <;> simp

/-- `addEpisodicMemory` on a non-string event throws (before mutating
anything): the unguarded `content.toLowerCase()` in
`analyzeEmotionalContext`. -/
theorem addEpisodicMemory_other (now : ℚ) (newId : String) (tag : Nat) (m : Memory) :
    addEpisodicMemory now newId (JSValue.other tag) m = Except.error () := rfl

/-- `analyzeEmotionalContext` succeeds on every string. -/
theorem analyzeEmotionalContext_str_ok (s : String) :
    ∃ em, analyzeEmotionalContext (JSValue.str s) = Except.ok em := ⟨_, rfl⟩

/-- The successful result of `addEpisodicMemory` on a string event. -/
theorem addEpisodicMemory_str (now : ℚ) (newId : String) (s : String) (m : Memory)
    (em : Emotions) (hres : analyzeEmotionalContext (JSValue.str s) = Except.ok em) :
    addEpisodicMemory now newId (JSValue.str s) m =
      Except.ok (newId,
        if m.episodicCapacity < (m.episodic ++ [episodeOf now newId s m em]).length then
          { m with episodic := (m.episodic ++ [episodeOf now newId s m em]).tail }
        else { m with episodic := m.episodic ++ [episodeOf now newId s m em] }) := by
  simp only [addEpisodicMemory, hres, episodeOf]

/-- One public call preserves the capacity invariant. -/
theorem applyOp_capInv (m : Memory) (op : MemOp) (h : capInv m) :
    capInv (applyOp m op) := by
  cases op with
  | addShort now newId item => exact addToShortTerm_capInv now newId item m h
  | addLong now key value importance => exact addToLongTerm_capInv now key value importance m h
  | addEpisodic now newId event =>
    obtain ⟨h1, h2, h3, h4⟩ := h
    cases event with
    | other tag =>
      simp only [applyOp, addEpisodicMemory_other]
      exact ⟨h1, h2, h3, h4⟩
    | str s =>
      obtain ⟨em, hres⟩ := analyzeEmotionalContext_str_ok s
      simp only [applyOp, addEpisodicMemory_str now newId s m em hres]
      by_cases hover : m.episodicCapacity < (m.episodic ++ [episodeOf now newId s m em]).length
      · simp only [if_pos hover]
        refine ⟨h1, h2, ?_, h4⟩
        rw [tail_append_singleton_length]
        exact h3
      · simp only [if_neg hover]
        refine ⟨h1, h2, ?_, h4⟩
        exact Nat.le_of_not_lt hover

/-- One public call changes no capacity field. -/
theorem applyOp_caps (m : Memory) (op : MemOp) :
    (applyOp m op).shortTermCapacity = m.shortTermCapacity ∧
    (applyOp m op).longTermCapacity = m.longTermCapacity ∧
    (applyOp m op).episodicCapacity = m.episodicCapacity := by
  cases op with
  | addShort now newId item =>
    obtain ⟨a, b, c, _⟩ := addToShortTerm_frame now newId item m
    exact ⟨a, b, c⟩
  | addLong now key value importance =>
    obtain ⟨a, b, c, _, _⟩ := addToLongTerm_frame now key value importance m
    exact ⟨a, b, c⟩
  | addEpisodic now newId event =>
    cases event with
    | other tag => simp [applyOp, addEpisodicMemory_other]
    | str s =>
      obtain ⟨em, hres⟩ := analyzeEmotionalContext_str_ok s
      simp only [applyOp, addEpisodicMemory_str now newId s m em hres]
      refine ⟨?_, ?_, ?_⟩ <;> (split <;> rfl)

/-- A whole call sequence preserves the capacity invariant. -/
theorem runOps_capInv (ops : List MemOp) (m : Memory) (h : capInv m) :
    capInv (runOps ops m) := by
  induction ops generalizing m with
  | nil => exact h
  | cons op ops ih => exact ih (applyOp m op) (applyOp_capInv m op h)

/-- A whole call sequence changes no capacity field. -/
theorem runOps_caps (ops : List MemOp) (m : Memory) :
    (runOps ops m).shortTermCapacity = m.shortTermCapacity ∧
    (runOps ops m).longTermCapacity = m.longTermCapacity ∧
    (runOps ops m).episodicCapacity = m.episodicCapacity := by
  induction ops generalizing m with
  | nil => exact ⟨rfl, rfl, rfl⟩
  | cons op ops ih =>
    obtain ⟨a, b, c⟩ := ih (applyOp m op)
    obtain ⟨d, e, f⟩ := applyOp_caps m op
    exact ⟨a.trans d, b.trans e, c.trans f⟩

/-! ## Claim C1: capacity invariant -/

/-- C1 (amended): for every capacity configuration with `shortTermCapacity`,
`longTermCapacity`, `episodicCapacity` ≥ 1, after any finite sequence of
`addToShortTerm`, `addToLongTerm` and `addEpisodicMemory` calls, the
short-term buffer length is ≤ `shortTermCapacity`, the long-term map size is
≤ `longTermCapacity`, and the episodic log length is ≤ `episodicCapacity`.
(The claim's original bound "≥ 0" fails: the constructor's `|| default`
turns a configured capacity of `0` into the default, see
`C1_capacity_zero_cex`.) -/
theorem C1_capacity_amended (c1 c2 c3 : Nat) (h1 : 1 ≤ c1) (h2 : 1 ≤ c2)
    (h3 : 1 ≤ c3) (ops : List MemOp) :
    (runOps ops (Memory.init c1 c2 c3)).shortTerm.length ≤ c1 ∧
    (runOps ops (Memory.init c1 c2 c3)).longTerm.length ≤ c2 ∧
    (runOps ops (Memory.init c1 c2 c3)).episodic.length ≤ c3 := by
  have hinit : capInv (Memory.init c1 c2 c3) := by
    refine ⟨?_, ?_, ?_, ?_⟩ <;> simp [Memory.init, keysOf_nil]
  obtain ⟨a, b, c, _⟩ := runOps_capInv ops (Memory.init c1 c2 c3) hinit
  obtain ⟨e, f, g⟩ := runOps_caps ops (Memory.init c1 c2 c3)
  have e1 : (Memory.init c1 c2 c3).shortTermCapacity = c1 := by
    simp only [Memory.init, jsOrDefault]
    rw [if_neg (by omega)]
  have e2 : (Memory.init c1 c2 c3).longTermCapacity = c2 := by
    simp only [Memory.init, jsOrDefault]
    rw [if_neg (by omega)]
  have e3 : (Memory.init c1 c2 c3).episodicCapacity = c3 := by
    simp only [Memory.init, jsOrDefault]
    rw [if_neg (by omega)]
  rw [e, e1] at a
  rw [f, e2] at b
  rw [g, e3] at c
  exact ⟨a, b, c⟩

/-- Witness for C1 at a concrete configuration and call sequence. -/
theorem C1_capacity_witness :
    (runOps [MemOp.addShort 0 "a" (JSValue.str "x"),
             MemOp.addShort 1 "b" (JSValue.str "y"),
             MemOp.addLong 2 "k" (JSValue.str "v") (1/2),
             MemOp.addEpisodic 3 "c" (JSValue.str "z")]
        (Memory.init 1 1 1)).shortTerm.length ≤ 1 ∧
    (runOps [MemOp.addShort 0 "a" (JSValue.str "x"),
             MemOp.addShort 1 "b" (JSValue.str "y"),
             MemOp.addLong 2 "k" (JSValue.str "v") (1/2),
             MemOp.addEpisodic 3 "c" (JSValue.str "z")]
        (Memory.init 1 1 1)).longTerm.length ≤ 1 ∧
    (runOps [MemOp.addShort 0 "a" (JSValue.str "x"),
             MemOp.addShort 1 "b" (JSValue.str "y"),
             MemOp.addLong 2 "k" (JSValue.str "v") (1/2),
             MemOp.addEpisodic 3 "c" (JSValue.str "z")]
        (Memory.init 1 1 1)).episodic.length ≤ 1 :=
  C1_capacity_amended 1 1 1 (by decide) (by decide) (by decide) _

/-- Counterexample to C1 as stated: with a configured `shortTermCapacity` of
`0` (which is ≥ 0), one `addToShortTerm` call leaves the buffer at length 1,
exceeding the configured capacity — the constructor's
`config.shortTermCapacity || 10` silently replaces `0` by `10`
(src/main.js:811). -/
theorem C1_capacity_zero_cex :
    (runOps [MemOp.addShort 0 "a" (JSValue.str "x")]
        (Memory.init 0 5 5)).shortTerm.length = 1 ∧
    ¬((runOps [MemOp.addShort 0 "a" (JSValue.str "x")]
        (Memory.init 0 5 5)).shortTerm.length ≤ 0) := by
  decide

/-! ## Claim C2: the promotion rule -/

/-- No capacity management happens at or below capacity. -/
theorem manage_noop (m : Memory) (h : m.longTerm.length ≤ m.longTermCapacity) :
    manageLongTermCapacity m = m := by
  simp [manageLongTermCapacity, h]

/-- Looking up a key appended behind entries that do not hold it. -/
theorem lookupKV_append_singleton_self {β : Type} (mp : List (String × β))
    (k : String) (v : β) (h : k ∉ keysOf mp) :
    lookupKV (mp ++ [(k, v)]) k = some v := by
  induction mp with
  | nil => simp [lookupKV]
  | cons e rest ih =>
    obtain ⟨k', w⟩ := e
    have hne : k' ≠ k := fun hh => h (by simp [keysOf_cons, hh])
    have hrest : k ∉ keysOf rest := fun hh => h (by simp [keysOf_cons, hh])
    simp only [List.cons_append, lookupKV, if_neg hne]
    exact ih hrest

/-- Updating a key appended behind entries that do not hold it. -/
theorem setKV_append_singleton_self {β : Type} (mp : List (String × β))
    (k : String) (v w : β) (h : k ∉ keysOf mp) :
    setKV (mp ++ [(k, v)]) k w = mp ++ [(k, w)] := by
  induction mp with
  | nil => simp [setKV]
  | cons e rest ih =>
    obtain ⟨k', u⟩ := e
    have hne : k' ≠ k := fun hh => h (by simp [keysOf_cons, hh])
    have hrest : k ∉ keysOf rest := fun hh => h (by simp [keysOf_cons, hh])
    simp only [List.cons_append, setKV, if_neg hne, List.append_eq]
    rw [ih hrest]

/-- C2 (amended): with the buffer at capacity, one further `addToShortTerm`
evicts exactly the oldest item, and — provided the long-term store is
strictly below its capacity and the derived key `consolidated_<id>` is not
already present — an eviction with importance > 0.7 appends exactly one new
long-term entry, marked `consolidated = true`, while an eviction with
importance ≤ 0.7 leaves the long-term store unchanged.  (As literally
stated, over "every state", the claim fails: when the long-term store is at
capacity the promoted entry can be immediately evicted again by
`manageLongTermCapacity`, see `C2_promotion_cex`.) -/
theorem C2_promotion_amended (m : Memory) (now : ℚ) (newId : String) (v : JSValue)
    (oldest : MemoryItem) (rest : List MemoryItem)
    (hshape : m.shortTerm = oldest :: rest)
    (hfull : m.shortTerm.length = m.shortTermCapacity) :
    (addToShortTerm now newId v m).2.shortTerm
        = rest ++ [⟨v, now, calculateImportance v, newId⟩] ∧
    (7/10 < oldest.importance →
      m.longTerm.length < m.longTermCapacity →
      lookupKV m.longTerm ("consolidated_" ++ oldest.id) = none →
      (addToShortTerm now newId v m).2.longTerm
        = m.longTerm ++ [("consolidated_" ++ oldest.id,
            ⟨oldest.content, oldest.importance, now, 0, now, true⟩)]) ∧
    (oldest.importance ≤ 7/10 →
      (addToShortTerm now newId v m).2.longTerm = m.longTerm) := by
  have hcond : m.shortTermCapacity <
      (oldest :: (rest ++ [(⟨v, now, calculateImportance v, newId⟩ : MemoryItem)])).length := by
    rw [hshape] at hfull
    simp only [List.length_cons, List.length_append, List.length_singleton] at hfull ⊢
    omega
  simp only [addToShortTerm, hshape, List.cons_append, if_pos hcond]
  by_cases himp : (7 : ℚ)/10 < oldest.importance
  · rw [if_pos himp]
    refine ⟨?_, ?_, ?_⟩
    · obtain ⟨_, _, _, hST, _⟩ := consolidateToLongTerm_frame now oldest
        { m with shortTerm := rest ++ [⟨v, now, calculateImportance v, newId⟩] }
      rw [hST]
    · intro _ hlt hfresh
      have hnotmem : ("consolidated_" ++ oldest.id) ∉ keysOf m.longTerm :=
        (lookupKV_eq_none _ _).1 hfresh
      have hset : (setLongTerm now ("consolidated_" ++ oldest.id) oldest.content
          oldest.importance
          { m with shortTerm := rest ++ [⟨v, now, calculateImportance v, newId⟩] }).longTerm
          = m.longTerm ++ [("consolidated_" ++ oldest.id,
              ⟨oldest.content, oldest.importance, now, 0, now, false⟩)] := by
        simp only [setLongTerm]
        exact setKV_of_not_mem _ _ _ hnotmem
      have hnoop : manageLongTermCapacity (setLongTerm now ("consolidated_" ++ oldest.id)
          oldest.content oldest.importance
          { m with shortTerm := rest ++ [⟨v, now, calculateImportance v, newId⟩] })
          = setLongTerm now ("consolidated_" ++ oldest.id) oldest.content oldest.importance
              { m with shortTerm := rest ++ [⟨v, now, calculateImportance v, newId⟩] } := by
        apply manage_noop
        rw [hset]
        simp only [List.length_append, List.length_singleton]
        show m.longTerm.length + 1 ≤ m.longTermCapacity
        omega
      simp only [consolidateToLongTerm, addToLongTerm, hnoop]
      rw [hset]
      rw [lookupKV_append_singleton_self m.longTerm _ _ hnotmem]
      simp only []
      rw [setKV_append_singleton_self m.longTerm _ _ _ hnotmem]
    · intro hle
      exact absurd himp (not_lt.2 hle)
  · rw [if_neg himp]
    refine ⟨rfl, ?_, fun _ => rfl⟩
    intro h1 _ _
    exact absurd h1 himp

/-- Witness for C2 on a concrete at-capacity memory with a high-importance
oldest item and a long-term store below capacity. -/
theorem C2_promotion_witness :
    (addToShortTerm 0 "b" (JSValue.str "q") mC2).2.shortTerm
        = [] ++ [⟨JSValue.str "q", 0, calculateImportance (JSValue.str "q"), "b"⟩] ∧
    (7/10 < (⟨JSValue.str "h", 0, 8/10, "a"⟩ : MemoryItem).importance →
      mC2.longTerm.length < mC2.longTermCapacity →
      lookupKV mC2.longTerm ("consolidated_" ++ "a") = none →
      (addToShortTerm 0 "b" (JSValue.str "q") mC2).2.longTerm
        = mC2.longTerm ++ [("consolidated_" ++ "a",
            ⟨JSValue.str "h", 8/10, 0, 0, 0, true⟩)]) ∧
    ((⟨JSValue.str "h", 0, 8/10, "a"⟩ : MemoryItem).importance ≤ 7/10 →
      (addToShortTerm 0 "b" (JSValue.str "q") mC2).2.longTerm = mC2.longTerm) :=
  C2_promotion_amended mC2 0 "b" (JSValue.str "q") ⟨JSValue.str "h", 0, 8/10, "a"⟩ [] rfl rfl

/-- Counterexample to C2 as stated: in a state whose long-term store is at
its capacity (here `longTermCapacity = 0`, installable through `load`), the
eviction of an item with importance `0.8 > 0.7` produces **zero** new
long-term entries — the promoted copy is deleted again by
`manageLongTermCapacity` before `consolidateToLongTerm` can flag it. -/
theorem C2_promotion_cex :
    mC2cex.shortTerm.length = mC2cex.shortTermCapacity ∧
    (7 : ℚ)/10 < 8/10 ∧
    (addToShortTerm 0 "b" (JSValue.str "q") mC2cex).2.longTerm = [] := by
  with_unfolding_all decide

/-! ## Claim C3: recall ordering -/

/-- Membership in a guard that yields the empty list when the tier is not
selected. -/
theorem mem_of_mem_ite_nil {α : Type} {c : Prop} [Decidable c] {l : List α} {r : α}
    (h : r ∈ if c then l else []) : r ∈ l := by
  by_cases hc : c
  · rwa [if_pos hc] at h
  · rw [if_neg hc] at h
    cases h

/-- Short-term search results all clear the `0.1` relevance filter. -/
theorem searchShortTerm_relevance (query : JSValue) (m : Memory) (r : SearchResult)
    (h : r ∈ searchShortTerm query m) : 1/10 < r.relevance := by
  simp only [searchShortTerm, List.mem_filter, decide_eq_true_eq] at h
  exact h.2

/-- Long-term search results all clear the `0.1` relevance filter. -/
theorem searchLongTerm_relevance (query : JSValue) (m : Memory) (r : SearchResult)
    (h : r ∈ searchLongTerm query m) : 1/10 < r.relevance := by
  simp only [searchLongTerm, List.mem_filterMap] at h
  obtain ⟨e, _, he⟩ := h
  by_cases hrel : 1/10 < calculateRelevance query e.2.content
  · rw [if_pos hrel] at he
    cases he
    exact hrel
  · rw [if_neg hrel] at he
    cases he

/-- Episodic search results all clear the `0.1` relevance filter. -/
theorem searchEpisodic_relevance (query : JSValue) (m : Memory) (r : SearchResult)
    (h : r ∈ searchEpisodic query m) : 1/10 < r.relevance := by
  simp only [searchEpisodic, List.mem_filter, decide_eq_true_eq] at h
  exact h.2

/-- C3 (confirmed): for every query and every memory state (and every tier
filter), `recall` returns a list sorted in descending order of relevance
score, and no returned element has a relevance score ≤ 0.1. -/
theorem C3_recall_sorted (now : ℚ) (query : JSValue) (memoryType : String) (m : Memory) :
    ((recallOp now query memoryType m).1.Pairwise (fun a b => b.relevance ≤ a.relevance)) ∧
    ∀ r ∈ (recallOp now query memoryType m).1, 1/10 < r.relevance := by
  constructor
  · simp only [recallOp]
    exact sortDescBy_pairwise _ _
  · intro r hr
    simp only [recallOp] at hr
    have hr' := (sortDescBy_perm (fun r : SearchResult => r.relevance) _).mem_iff.1 hr
    rcases List.mem_append.1 hr' with h12 | h3
    · rcases List.mem_append.1 h12 with h1 | h2
      · exact searchShortTerm_relevance query m r (mem_of_mem_ite_nil h1)
      · exact searchLongTerm_relevance query m r (mem_of_mem_ite_nil h2)
    · exact searchEpisodic_relevance query m r (mem_of_mem_ite_nil h3)

/-! ## Claim C6: the relevance score -/

/-- Splitting always yields at least one token (`"".split(' ')` is `[""]`),
as in JS. -/
theorem splitSpAux_length_pos (l acc : List Char) : 1 ≤ (splitSpAux l acc).length := by
  induction l generalizing acc with
  | nil => simp [splitSpAux]
  | cons c rest ih =>
    simp only [splitSpAux]
    split
    · simp only [List.length_cons]
      have := ih ([] : List Char)
      omega
    · exact ih _

/-- `splitSp` yields at least one token. -/
theorem splitSp_length_pos (s : List Char) : 1 ≤ (splitSp s).length :=
  splitSpAux_length_pos s []

/-- A count-over-total ratio lies in `[0, 1]`. -/
theorem ratio_bounds (mc total : Nat) (hmc : mc ≤ total) (htot : 1 ≤ total) :
    0 ≤ ((mc : ℚ) / (total : ℚ)) ∧ ((mc : ℚ) / (total : ℚ)) ≤ 1 := by
  have htot' : (0 : ℚ) < (total : ℚ) := by exact_mod_cast htot
  constructor
  · positivity
  · rw [div_le_one htot']
    exact_mod_cast hmc

/-- The boost `min (s + 0.5) 1` lies in `[0, 1]` for nonnegative `s`. -/
theorem boost_bounds (s : ℚ) (h0 : 0 ≤ s) :
    0 ≤ min (s + 1/2) 1 ∧ min (s + 1/2) 1 ≤ 1 :=
  ⟨le_min (by linarith) (by norm_num), min_le_right _ _⟩

/-- C6 (confirmed): `calculateRelevance` computes exactly the specified
token-overlap score (`calculateRelevanceSpec`, whose "no tokens" guard is
vacuous because a JS `split(' ')` always yields at least one token), its
result always lies in `[0, 1]`, and a non-string input on either side gives
`0` without error. -/
theorem C6_relevance (query content : JSValue) :
    calculateRelevance query content = calculateRelevanceSpec query content ∧
    0 ≤ calculateRelevance query content ∧
    calculateRelevance query content ≤ 1 ∧
    (∀ tag, calculateRelevance (JSValue.other tag) content = 0) ∧
    (∀ tag, calculateRelevance query (JSValue.other tag) = 0) := by
  cases query with
  | other tag0 =>
    cases content with
    | str c => exact ⟨rfl, le_refl 0, by norm_num [calculateRelevance], fun tag => rfl, fun tag => rfl⟩
    | other t => exact ⟨rfl, le_refl 0, by norm_num [calculateRelevance], fun tag => rfl, fun tag => rfl⟩
  | str q =>
    cases content with
    | other t => exact ⟨rfl, le_refl 0, by norm_num [calculateRelevance], fun tag => rfl, fun tag => rfl⟩
    | str c =>
      have hpos := splitSp_length_pos (lowerL q.toList)
      obtain ⟨hb0, hb1⟩ := ratio_bounds
        ((splitSp (lowerL q.toList)).countP (fun token =>
          (splitSp (lowerL c.toList)).any
            (fun cToken => inclSub cToken token || inclSub token cToken)))
        (splitSp (lowerL q.toList)).length
        (List.countP_le_length _) hpos
      refine ⟨?_, ?_, ?_, fun tag => rfl, fun tag => rfl⟩
      · simp only [calculateRelevanceSpec]
        rw [if_neg (Nat.pos_iff_ne_zero.1 hpos)]
        rfl
      · simp only [calculateRelevance]
        split
        · exact (boost_bounds _ hb0).1
        · exact hb0
      · simp only [calculateRelevance]
        split
        · exact (boost_bounds _ hb0).2
        · exact hb1

/-! ## Claim C10: decay monotonicity and purging -/

/-- A successful lookup exhibits its entry. -/
theorem lookupKV_some_mem_pair {β : Type} (mp : List (String × β)) (k : String)
    (v : β) (h : lookupKV mp k = some v) : (k, v) ∈ mp := by
  induction mp with
  | nil => simp [lookupKV] at h
  | cons e rest ih =>
    obtain ⟨k0, v0⟩ := e
    by_cases hk : k0 = k
    · subst hk
      simp only [lookupKV, if_pos rfl] at h
      cases h
      exact List.mem_cons_self _ _
    · simp only [lookupKV, if_neg hk] at h
      exact List.mem_cons_of_mem _ (ih h)

/-- A key-preserving `filterMap` only shrinks the key list. -/
theorem keysOf_filterMap_sublist (mp : List (String × LTItem))
    (f : String × LTItem → Option (String × LTItem))
    (hf : ∀ e r, f e = some r → r.1 = e.1) :
    (keysOf (mp.filterMap f)).Sublist (keysOf mp) := by
  induction mp with
  | nil => simp [keysOf_nil]
  | cons e rest ih =>
    cases hfe : f e with
    | none =>
      rw [List.filterMap_cons_none hfe, keysOf_cons]
      exact ih.cons e.1
    | some r =>
      rw [List.filterMap_cons_some hfe, keysOf_cons, keysOf_cons, hf e r hfe]
      exact ih.cons₂ e.1

/-- Looking up after a key-preserving `filterMap` over duplicate-free keys
recovers the original entry and its image. -/
theorem lookupKV_filterMap_keyPres (mp : List (String × LTItem))
    (f : String × LTItem → Option (String × LTItem))
    (hf : ∀ e r, f e = some r → r.1 = e.1)
    (hnd : (keysOf mp).Nodup) (k : String) (it' : LTItem)
    (h : lookupKV (mp.filterMap f) k = some it') :
    ∃ it, lookupKV mp k = some it ∧ f (k, it) = some (k, it') := by
  induction mp with
  | nil => simp [lookupKV] at h
  | cons e rest ih =>
    obtain ⟨k0, v0⟩ := e
    rcases hnd' : List.nodup_cons.1 (by simpa [keysOf_cons] using hnd) with ⟨hk0, hrestnd⟩
    cases hfe : f (k0, v0) with
    | none =>
      rw [List.filterMap_cons_none hfe] at h
      by_cases hk : k0 = k
      · subst hk
        exfalso
        have hmemf : k0 ∈ keysOf (rest.filterMap f) := by
          by_contra hno
          rw [(lookupKV_eq_none _ _).2 hno] at h
          cases h
        exact hk0 ((keysOf_filterMap_sublist rest f hf).subset hmemf)
      · obtain ⟨it, h1, h2⟩ := ih hrestnd h
        exact ⟨it, by simp only [lookupKV, if_neg hk]; exact h1, h2⟩
    | some r =>
      have hr1 : r.1 = k0 := hf _ _ hfe
      rw [List.filterMap_cons_some hfe] at h
      by_cases hk : k0 = k
      · subst hk
        rw [show r = (k0, r.2) from Prod.ext hr1 rfl] at h hfe
        simp only [lookupKV, if_pos rfl] at h
        cases h
        exact ⟨v0, by simp [lookupKV], hfe⟩
      · have : r.1 ≠ k := by rw [hr1]; exact hk
        simp only [lookupKV] at h ⊢
        rw [show r = (r.1, r.2) from rfl] at h
        simp only [lookupKV, if_neg this] at h
        obtain ⟨it, h1, h2⟩ := ih hrestnd h
        exact ⟨it, by rw [if_neg hk]; exact h1, h2⟩

/-- `applyDecay` computes the filterMap of `decayStep` on the store and
changes no configuration field or other tier. -/
theorem applyDecay_frame (expf : ℚ → ℚ) (now : ℚ) (m : Memory) :
    (applyDecay expf now m).longTerm
        = m.longTerm.filterMap (decayStep expf now m.decayRate) ∧
    (applyDecay expf now m).decayRate = m.decayRate ∧
    (applyDecay expf now m).shortTerm = m.shortTerm ∧
    (applyDecay expf now m).episodic = m.episodic := by
  unfold applyDecay
  generalize (m.longTerm.filter
    (fun e => decayStep expf now m.decayRate e = none)).map Prod.fst = ks
  generalize hstart : ({ m with longTerm := m.longTerm.filterMap (decayStep expf now m.decayRate) } : Memory) = start
  have hgen : ∀ (ks : List String) (s : Memory),
      ((ks.foldl (fun mm k =>
        { mm with
          memoryWeights := delKV mm.memoryWeights k
          accessCount := delKV mm.accessCount k
          lastAccess := delKV mm.lastAccess k }) s)).longTerm = s.longTerm ∧
      ((ks.foldl (fun mm k =>
        { mm with
          memoryWeights := delKV mm.memoryWeights k
          accessCount := delKV mm.accessCount k
          lastAccess := delKV mm.lastAccess k }) s)).decayRate = s.decayRate ∧
      ((ks.foldl (fun mm k =>
        { mm with
          memoryWeights := delKV mm.memoryWeights k
          accessCount := delKV mm.accessCount k
          lastAccess := delKV mm.lastAccess k }) s)).shortTerm = s.shortTerm ∧
      ((ks.foldl (fun mm k =>
        { mm with
          memoryWeights := delKV mm.memoryWeights k
          accessCount := delKV mm.accessCount k
          lastAccess := delKV mm.lastAccess k }) s)).episodic = s.episodic := by
    intro ks
    induction ks with
    | nil => intro s; exact ⟨rfl, rfl, rfl, rfl⟩
    | cons a as ih => intro s; exact ih _
  obtain ⟨h1, h2, h3, h4⟩ := hgen ks start
  rw [← hstart] at h1 h2 h3 h4
  exact ⟨h1, h2, h3, h4⟩

/-- What `decayStep` can return: the same entry (not yet past the horizon)
or the entry with importance multiplied by an `expf` factor of a negative
argument; the key, last-access time and consolidation flag are kept. -/
theorem decayStep_some_spec (expf : ℚ → ℚ) (now dr : ℚ) (e : String × LTItem)
    (k : String) (it' : LTItem)
    (hexp : ∀ x : ℚ, x < 0 → 0 ≤ expf x ∧ expf x ≤ 1) (hdr : 0 < dr)
    (h0 : 0 ≤ e.2.importance)
    (h : decayStep expf now dr e = some (k, it')) :
    it'.importance ≤ e.2.importance ∧ 0 ≤ it'.importance := by
  simp only [decayStep] at h
  split at h
  · next helapsed =>
    split at h
    · cases h
    · cases h
      have hthr : (0 : ℚ) < decayThreshold := by norm_num [decayThreshold]
      have hratio : 1 < (now - e.2.lastAccess) / decayThreshold := by
        rw [lt_div_iff₀ hthr]
        linarith
      have harg : -(dr * ((now - e.2.lastAccess) / decayThreshold)) < 0 := by
        have : 0 < dr * ((now - e.2.lastAccess) / decayThreshold) :=
          mul_pos hdr (lt_trans one_pos hratio)
        linarith
      obtain ⟨hf0, hf1⟩ := hexp _ harg
      constructor
      · exact mul_le_of_le_one_right h0 hf1
      · exact mul_nonneg h0 hf0
  · cases h
    exact ⟨le_refl _, h0⟩

/-- `decayStep` keeps the key. -/
theorem decayStep_keyPres (expf : ℚ → ℚ) (now dr : ℚ) :
    ∀ e r, decayStep expf now dr e = some r → r.1 = e.1 := by
  intro e r h
  simp only [decayStep] at h
  split at h
  · split at h
    · cases h
    · cases h; rfl
  · cases h; rfl

/-- One `applyDecay` call never increases a surviving item's importance
(and keeps it nonnegative). -/
theorem applyDecay_lookup (expf : ℚ → ℚ) (now : ℚ) (m : Memory)
    (hexp : ∀ x : ℚ, x < 0 → 0 ≤ expf x ∧ expf x ≤ 1) (hdr : 0 < m.decayRate)
    (hnd : (keysOf m.longTerm).Nodup)
    (h0 : ∀ p ∈ m.longTerm, 0 ≤ p.2.importance) (k : String) (it' : LTItem)
    (h : lookupKV (applyDecay expf now m).longTerm k = some it') :
    ∃ it, lookupKV m.longTerm k = some it ∧ it'.importance ≤ it.importance ∧
      0 ≤ it'.importance := by
  obtain ⟨hLT, _, _, _⟩ := applyDecay_frame expf now m
  rw [hLT] at h
  obtain ⟨it, h1, h2⟩ :=
    lookupKV_filterMap_keyPres m.longTerm _ (decayStep_keyPres expf now m.decayRate) hnd k it' h
  have hmem : (k, it) ∈ m.longTerm := lookupKV_some_mem_pair _ _ _ h1
  obtain ⟨ha, hb⟩ := decayStep_some_spec expf now m.decayRate (k, it) k it' hexp hdr
    (h0 _ hmem) h2
  exact ⟨it, h1, ha, hb⟩

/-- `applyDecay` preserves the well-formedness facts the iteration needs. -/
theorem applyDecay_wf (expf : ℚ → ℚ) (now : ℚ) (m : Memory)
    (hexp : ∀ x : ℚ, x < 0 → 0 ≤ expf x ∧ expf x ≤ 1) (hdr : 0 < m.decayRate)
    (hnd : (keysOf m.longTerm).Nodup)
    (h0 : ∀ p ∈ m.longTerm, 0 ≤ p.2.importance) :
    (keysOf (applyDecay expf now m).longTerm).Nodup ∧
    (∀ p ∈ (applyDecay expf now m).longTerm, 0 ≤ p.2.importance) ∧
    (applyDecay expf now m).decayRate = m.decayRate := by
  obtain ⟨hLT, hDR, _, _⟩ := applyDecay_frame expf now m
  refine ⟨?_, ?_, hDR⟩
  · rw [hLT]
    exact (keysOf_filterMap_sublist m.longTerm _
      (decayStep_keyPres expf now m.decayRate)).nodup hnd
  · intro p hp
    rw [hLT] at hp
    obtain ⟨e, he, hfe⟩ := List.mem_filterMap.1 hp
    have hk := decayStep_keyPres expf now m.decayRate e p hfe
    have : decayStep expf now m.decayRate e = some (p.1, p.2) := by
      rwa [show ((p.1, p.2) : String × LTItem) = p from rfl]
    obtain ⟨_, hb⟩ := decayStep_some_spec expf now m.decayRate e p.1 p.2 hexp hdr
      (h0 _ he) this
    exact hb

/-- Repeated decay never increases a surviving item's importance. -/
theorem applyDecayN_lookup (expf : ℚ → ℚ)
    (hexp : ∀ x : ℚ, x < 0 → 0 ≤ expf x ∧ expf x ≤ 1) :
    ∀ (nows : List ℚ) (m : Memory), 0 < m.decayRate →
    (keysOf m.longTerm).Nodup → (∀ p ∈ m.longTerm, 0 ≤ p.2.importance) →
    ∀ (k : String) (it' : LTItem),
    lookupKV (applyDecayN expf nows m).longTerm k = some it' →
    ∃ it, lookupKV m.longTerm k = some it ∧ it'.importance ≤ it.importance := by
  intro nows
  induction nows with
  | nil =>
    intro m _ _ _ k it' h
    exact ⟨it', h, le_refl _⟩
  | cons t ts ih =>
    intro m hdr hnd h0 k it' h
    obtain ⟨hnd', h0', hdr'⟩ := applyDecay_wf expf t m hexp hdr hnd h0
    obtain ⟨mid, hmid, hle⟩ :=
      ih (applyDecay expf t m) (hdr' ▸ hdr) hnd' h0' k it'
        (by simpa [applyDecayN] using h)
    obtain ⟨it, hit, hle2, _⟩ := applyDecay_lookup expf t m hexp hdr hnd h0 k mid hmid
    exact ⟨it, hit, le_trans hle hle2⟩

/-- With duplicate-free keys, any entry holding a looked-up key is the
looked-up entry. -/
theorem mem_eq_of_lookup_nodup {β : Type} (mp : List (String × β)) (k : String)
    (v : β) (hnd : (keysOf mp).Nodup) (hl : lookupKV mp k = some v)
    (e : String × β) (he : e ∈ mp) (hek : e.1 = k) : e = (k, v) := by
  induction mp with
  | nil => cases he
  | cons p rest ih =>
    obtain ⟨k0, v0⟩ := p
    obtain ⟨hk0, hrestnd⟩ := List.nodup_cons.1 (by simpa [keysOf_cons] using hnd)
    rcases List.mem_cons.1 he with heq | hrest
    · subst heq
      have : k0 = k := hek
      subst this
      simp only [lookupKV, if_pos rfl] at hl
      cases hl
      rfl
    · by_cases hk : k0 = k
      · subst hk
        exfalso
        apply hk0
        rw [← hek]
        exact List.mem_map_of_mem Prod.fst hrest
      · simp only [lookupKV, if_neg hk] at hl
        exact ih hrestnd hl hrest

/-- An over-horizon item whose decayed importance falls below `0.1` and
which is not consolidated is removed by `applyDecay`. -/
theorem applyDecay_purges (expf : ℚ → ℚ) (now : ℚ) (m : Memory)
    (hnd : (keysOf m.longTerm).Nodup) (k : String) (it : LTItem)
    (hit : lookupKV m.longTerm k = some it)
    (helapsed : decayThreshold < now - it.lastAccess)
    (hlow : it.importance *
      expf (-(m.decayRate * ((now - it.lastAccess) / decayThreshold))) < 1/10)
    (hcons : it.consolidated = false) :
    lookupKV (applyDecay expf now m).longTerm k = none := by
  obtain ⟨hLT, _, _, _⟩ := applyDecay_frame expf now m
  rw [hLT]
  apply (lookupKV_eq_none _ _).2
  intro hmemf
  obtain ⟨r, hrmem, hrk⟩ :
      ∃ p ∈ m.longTerm.filterMap (decayStep expf now m.decayRate), p.1 = k := by
    simpa [keysOf, List.mem_map] using hmemf
  obtain ⟨e, he, hfe⟩ := List.mem_filterMap.1 hrmem
  have hek : e.1 = k := by
    rw [← decayStep_keyPres expf now m.decayRate e r hfe, hrk]
  have he2 : e = (k, it) := mem_eq_of_lookup_nodup m.longTerm k it hnd hit e he hek
  have hnone : decayStep expf now m.decayRate (k, it) = none := by
    simp only [decayStep]
    rw [if_pos helapsed, if_pos ⟨hlow, hcons⟩]
  rw [he2, hnone] at hfe
  cases hfe

/-- C10 (confirmed): for every well-formed long-term memory state
(importances ≥ 0, duplicate-free keys, a positive decay rate — the
constructor fixes `decayRate = 0.1`) and every `expf` with the exponential's
property `0 ≤ expf x ≤ 1` for `x < 0`, repeated `applyDecay` calls with no
intervening access never increase any long-term item's importance, and any
over-horizon item whose decayed importance falls below `0.1` and whose
consolidated flag is false is removed from the store. -/
theorem C10_decay_monotone (expf : ℚ → ℚ)
    (hexp : ∀ x : ℚ, x < 0 → 0 ≤ expf x ∧ expf x ≤ 1)
    (m : Memory) (hdr : 0 < m.decayRate)
    (hnd : (keysOf m.longTerm).Nodup)
    (h0 : ∀ p ∈ m.longTerm, 0 ≤ p.2.importance) (nows : List ℚ) :
    (∀ k it', lookupKV (applyDecayN expf nows m).longTerm k = some it' →
      ∃ it, lookupKV m.longTerm k = some it ∧ it'.importance ≤ it.importance) ∧
    (∀ now k it, lookupKV m.longTerm k = some it →
      decayThreshold < now - it.lastAccess →
      it.importance *
        expf (-(m.decayRate * ((now - it.lastAccess) / decayThreshold))) < 1/10 →
      it.consolidated = false →
      lookupKV (applyDecay expf now m).longTerm k = none) :=
  ⟨fun k it' h => applyDecayN_lookup expf hexp nows m hdr hnd h0 k it' h,
   fun now k it hit he hl hc => applyDecay_purges expf now m hnd k it hit he hl hc⟩

/-- Witness for C10 at a concrete store and a concrete exponential-like
factor function. -/
theorem C10_decay_witness :
    (∀ k it',
      lookupKV (applyDecayN (fun _ => 1/2) [2 * decayThreshold] mC10).longTerm k
          = some it' →
      ∃ it, lookupKV mC10.longTerm k = some it ∧ it'.importance ≤ it.importance) ∧
    (∀ now k it, lookupKV mC10.longTerm k = some it →
      decayThreshold < now - it.lastAccess →
      it.importance *
        (fun _ : ℚ => (1 : ℚ)/2)
          (-(mC10.decayRate * ((now - it.lastAccess) / decayThreshold))) < 1/10 →
      it.consolidated = false →
      lookupKV (applyDecay (fun _ => 1/2) now mC10).longTerm k = none) :=
  C10_decay_monotone (fun _ => 1/2)
    (fun _ _ => ⟨by norm_num, by norm_num⟩)
    mC10
    (by norm_num [mC10, Memory.init])
    (by simp [mC10, keysOf])
    (by
      intro p hp
      simp only [mC10] at hp
      rcases List.mem_singleton.1 hp with rfl
      norm_num)
    [2 * decayThreshold]

/-! ## Claim C8: the importance-weight index diverges (code bug) -/

/-- C8 is violated by the code: after `addToLongTerm("k", "hello world",
0.5)` and seven `recall("hello")` calls, the seventh `updateAccess` (old
access count 6 > consolidationThreshold 5) nudges `memoryWeights["k"]` to
`0.6` while `longTerm["k"].importance` stays `0.5` — the two copies the
specification says "must not diverge" diverge.  (`applyDecay` diverges the
other way: it rescales `item.importance` without touching
`memoryWeights`.) -/
theorem C8_weights_diverge :
    lookupKV (recallN 7 1 (JSValue.str "hello") "longterm" mC8).memoryWeights "k"
        = some (3/5) ∧
    (lookupKV (recallN 7 1 (JSValue.str "hello") "longterm" mC8).longTerm "k").map
        LTItem.importance = some (1/2) ∧
    (3 : ℚ)/5 ≠ 1/2 := by
  with_unfolding_all decide

/-! ## Claim C9: no public operation throws (code bug) -/

/-- C9 is violated by the code: `addEpisodicMemory` on a non-string event
raises a `TypeError` (the unguarded `content.toLowerCase()` in
`analyzeEmotionalContext`, src/main.js:1112), while the guarded helpers do
degrade to the documented neutral defaults (importance `0.5`, relevance
`0`). -/
theorem C9_addEpisodic_throws :
    addEpisodicMemory 0 "e1" (JSValue.other 0) (Memory.init 10 100 50)
        = Except.error () ∧
    calculateImportance (JSValue.other 0) = 1/2 ∧
    calculateRelevance (JSValue.other 0) (JSValue.str "x") = 0 := by
  refine ⟨rfl, ?_, rfl⟩
  norm_num [calculateImportance]

/-! ## Claim C5: bounded-depth forward chaining -/

/-- `ruleHitTrace` appends exactly the one rule-application step. -/
theorem ruleHitTrace_steps (tr : Trace) (n : String) (concl : RuleConclusion) (depth : Nat) :
    (ruleHitTrace tr n concl depth).1.steps
      = tr.steps ++ [Step.ruleApplication n concl.content concl.confidence depth] := by
  simp only [ruleHitTrace]
  split <;> rfl

/-- Every step the rule loop appends is a rule application whose recorded
depth is at most `depth + fuel`. -/
theorem applyRulesGo_steps (fuel : Nat) :
    ∀ (names : List String) (query : String) (eng : Engine) (tr : Trace)
      (depth maxDepth : Nat) (s : Step),
      s ∈ (applyRulesGo fuel names query eng tr depth maxDepth).2.1.steps →
      s ∈ tr.steps ∨ ∃ n c conf d, s = Step.ruleApplication n c conf d ∧ d ≤ depth + fuel := by
  induction fuel using Nat.strong_induction_on with
  | _ fuel ihf =>
    intro names
    induction names with
    | nil =>
      intro query eng tr depth maxDepth s hs
      simp only [applyRulesGo] at hs
      exact Or.inl hs
    | cons n rest ihn =>
      intro query eng tr depth maxDepth s hs
      simp only [applyRulesGo] at hs
      split at hs
      · exact ihn query eng tr depth maxDepth s hs
      · next rule heq =>
        split at hs
        · next hm =>
          split at hs
          · next concl rule' happ =>
            simp only [] at hs
            have hstep2 : ∀ s', s' ∈ (ruleHitTrace tr n concl depth).1.steps →
                s' ∈ tr.steps ∨ ∃ n' c' conf' d',
                  s' = Step.ruleApplication n' c' conf' d' ∧ d' ≤ depth + fuel := by
              intro s' hs'
              rw [ruleHitTrace_steps] at hs'
              rcases List.mem_append.1 hs' with h | h
              · exact Or.inl h
              · rcases List.mem_singleton.1 h with rfl
                exact Or.inr ⟨n, concl.content, concl.confidence, depth, rfl, by omega⟩
            rcases ihn _ _ _ _ _ _ hs with hdeep | hrule
            · cases fuel with
              | zero => exact hstep2 s hdeep
              | succ fuel' =>
                rcases ihf fuel' (Nat.lt_succ_self _) _ _ _ _ _ _ _ hdeep with hin | hrule2
                · exact hstep2 s hin
                · rcases hrule2 with ⟨n', c', conf', d', rfl, hd⟩
                  exact Or.inr ⟨n', c', conf', d', rfl, by omega⟩
            · exact Or.inr hrule
          · exact ihn query eng tr depth maxDepth s hs
        · next hm => exact ihn query eng tr depth maxDepth s hs

/-- C5 (confirmed): `applyRules` with `maxDepth = D` terminates for every
rule set (the definition is total, with `maxDepth - depth` as the
termination measure — the same bound the source guard enforces); every rule
application it records fires at a depth < D, however many rules (including
self-referential ones) match at each level; and a call entered at
depth ≥ D does nothing at all. -/
theorem C5_rule_depth (eng : Engine) (query : String) (tr : Trace) (D : Nat) :
    (∀ s ∈ (applyRules query eng tr 0 D).2.1.steps,
      s ∈ tr.steps ∨ ∃ n c conf d, s = Step.ruleApplication n c conf d ∧ d < D) ∧
    (∀ depth, D ≤ depth → applyRules query eng tr depth D = (eng, tr, [])) := by
  constructor
  · intro s hs
    by_cases hD : D = 0
    · subst hD
      simp only [applyRules, if_pos (le_refl 0)] at hs
      exact Or.inl hs
    · have h0 : ¬(D ≤ 0) := by omega
      simp only [applyRules, if_neg h0] at hs
      rcases applyRulesGo_steps (D - 0 - 1) _ _ _ _ _ _ s hs with h | ⟨n, c, conf, d, rfl, hd⟩
      · exact Or.inl h
      · exact Or.inr ⟨n, c, conf, d, rfl, by omega⟩
  · intro depth hle
    simp [applyRules, hle]

/-! ## Claim C7: the modus_ponens example -/

/-- Counterexample to C7 as stated: applying `modus_ponens` (the rule
exactly as `initializeBasicRules` installs it) to "if rain then wet" yields
the conclusion "w", not "wet" — `extractVariables` compiles `{B}` to the
lazy group `(?<B>.+?)`, and at the end of the pattern a lazy group captures
a single character. -/
theorem C7_modus_ponens_cex :
    lookupKV (Engine.init 0).rules "modus_ponens" = some modusPonensRule ∧
    (applyRule "if rain then wet" modusPonensRule).map (fun p => p.1.content)
        = some "w" ∧
    ("w" : String) ≠ "wet" := by
  with_unfolding_all decide

/-- C7 (amended): applying the `modus_ponens` rule to "if rain then wet"
yields the conclusion "w" (the final lazy group captures one character) with
confidence 0.9; the rule does match the text. -/
theorem C7_modus_ponens_amended :
    (applyRule "if rain then wet" modusPonensRule).map
        (fun p => (p.1.content, p.1.confidence)) = some ("w", 9/10) ∧
    matchesRule "if rain then wet" modusPonensRule = true := by
  with_unfolding_all decide

/-! ## Claim C4: max-confidence merging in reason -/

/-! ## Claim C4 support: max-combination of trace confidence -/

/-- `foldl max` dominates its start value and every list element. -/
theorem le_foldl_max (cs : List ℚ) :
    ∀ a : ℚ, a ≤ cs.foldl max a ∧ ∀ c ∈ cs, c ≤ cs.foldl max a := by
  induction cs with
  | nil =>
    intro a
    exact ⟨le_refl a, by intro c hc; cases hc⟩
  | cons c rest ih =>
    intro a
    constructor
    · exact le_trans (le_max_left a c) (ih (max a c)).1
    · intro d hd
      rcases List.mem_cons.1 hd with rfl | hd'
      · exact le_trans (le_max_right a d) (ih (max a d)).1
      · exact (ih (max a c)).2 d hd'

/-- `foldl max` is attained: it is an element or the start value. -/
theorem foldl_max_mem (cs : List ℚ) :
    ∀ a : ℚ, cs.foldl max a ∈ cs ∨ cs.foldl max a = a := by
  induction cs with
  | nil => intro a; exact Or.inr rfl
  | cons c rest ih =>
    intro a
    rcases ih (max a c) with h | h
    · exact Or.inl (List.mem_cons_of_mem _ h)
    · rw [List.foldl_cons, h]
      rcases max_choice a c with h' | h'
      · exact Or.inr h'
      · rw [h']
        exact Or.inl (List.mem_cons_self c rest)

/-- The confidence after `ruleHitTrace` is the max-fold of its ghost
contributions over the incoming confidence. -/
theorem ruleHitTrace_conf (tr : Trace) (n : String) (concl : RuleConclusion)
    (depth : Nat) :
    (ruleHitTrace tr n concl depth).1.confidence
      = (ruleHitTrace tr n concl depth).2.foldl max tr.confidence := by
  simp only [ruleHitTrace]
  split <;> rfl

/-- Any ghost contribution of `ruleHitTrace` is the conclusion's
confidence. -/
theorem ruleHitTrace_ghost (tr : Trace) (n : String) (concl : RuleConclusion)
    (depth : Nat) (c : ℚ) (h : c ∈ (ruleHitTrace tr n concl depth).2) :
    c = concl.confidence := by
  simp only [ruleHitTrace] at h
  split at h
  · cases h
  · exact List.mem_singleton.1 h

/-- `applyRule` passes the rule's confidence through unchanged, both to the
conclusion and to the usage-bumped rule. -/
theorem applyRule_conf (input : String) (rule : Rule) (concl : RuleConclusion)
    (rule' : Rule) (h : applyRule input rule = some (concl, rule')) :
    concl.confidence = rule.confidence ∧ rule'.confidence = rule.confidence := by
  simp only [applyRule] at h
  split at h
  · cases h
  · split at h
    · split at h
      · simp only [Option.some.injEq, Prod.mk.injEq] at h
        obtain ⟨rfl, rfl⟩ := h
        exact ⟨rfl, rfl⟩
      · cases h
    · cases h

/-- Every pair of `setKV mp k v` is a pair of `mp` or the new binding. -/
theorem mem_setKV {β : Type} (mp : List (String × β)) (k : String) (v : β)
    (p : String × β) (h : p ∈ setKV mp k v) : p ∈ mp ∨ p = (k, v) := by
  induction mp with
  | nil =>
    simp only [setKV] at h
    rw [List.mem_singleton.1 h]
    exact Or.inr rfl
  | cons e rest ih =>
    simp only [setKV] at h
    split at h
    · next hk =>
      rcases List.mem_cons.1 h with rfl | h'
      · exact Or.inr (by rw [hk])
      · exact Or.inl (List.mem_cons_of_mem _ h')
    · rcases List.mem_cons.1 h with rfl | h'
      · exact Or.inl (List.mem_cons_self _ _)
      · rcases ih h' with h'' | h''
        · exact Or.inl (List.mem_cons_of_mem _ h'')
        · exact Or.inr h''

/-- The rule-loop confidence is the max-fold of its ghost contributions over
the incoming confidence. -/
theorem applyRulesGo_conf (fuel : Nat) :
    ∀ (names : List String) (query : String) (eng : Engine) (tr : Trace)
      (depth maxDepth : Nat),
      (applyRulesGo fuel names query eng tr depth maxDepth).2.1.confidence
        = (applyRulesGo fuel names query eng tr depth maxDepth).2.2.foldl
            max tr.confidence := by
  induction fuel using Nat.strong_induction_on with
  | _ fuel ihf =>
    intro names
    induction names with
    | nil =>
      intro query eng tr depth maxDepth
      simp only [applyRulesGo]
      rfl
    | cons n rest ihn =>
      intro query eng tr depth maxDepth
      simp only [applyRulesGo]
      split
      · exact ihn query eng tr depth maxDepth
      · next rule heq =>
        split
        · next hm =>
          split
          · next concl rule' happ =>
            cases fuel with
            | zero =>
              simp only []
              rw [List.foldl_append, List.foldl_append, List.foldl_nil,
                ← ruleHitTrace_conf tr n concl depth]
              exact ihn query { eng with rules := setKV eng.rules n rule' }
                (ruleHitTrace tr n concl depth).1 depth maxDepth
            | succ fuel' =>
              simp only []
              rw [List.foldl_append, List.foldl_append,
                ← ruleHitTrace_conf tr n concl depth,
                ← ihf fuel' (Nat.lt_succ_self _)
                    (keysOf (setKV eng.rules n rule')) concl.content
                    { eng with rules := setKV eng.rules n rule' }
                    (ruleHitTrace tr n concl depth).1 (depth + 1) maxDepth]
              exact ihn query _ _ depth maxDepth
          · exact ihn query eng tr depth maxDepth
        · exact ihn query eng tr depth maxDepth

/-- With every stored rule's confidence nonnegative, the rule loop keeps
that invariant and only contributes nonnegative confidences. -/
theorem applyRulesGo_nonneg (fuel : Nat) :
    ∀ (names : List String) (query : String) (eng : Engine) (tr : Trace)
      (depth maxDepth : Nat),
      (∀ p ∈ eng.rules, 0 ≤ p.2.confidence) →
      (∀ p ∈ (applyRulesGo fuel names query eng tr depth maxDepth).1.rules,
          0 ≤ p.2.confidence) ∧
      (∀ c ∈ (applyRulesGo fuel names query eng tr depth maxDepth).2.2, 0 ≤ c) := by
  induction fuel using Nat.strong_induction_on with
  | _ fuel ihf =>
    intro names
    induction names with
    | nil =>
      intro query eng tr depth maxDepth hr
      simp only [applyRulesGo]
      exact ⟨hr, by intro c hc; cases hc⟩
    | cons n rest ihn =>
      intro query eng tr depth maxDepth hr
      simp only [applyRulesGo]
      split
      · exact ihn query eng tr depth maxDepth hr
      · next rule heq =>
        split
        · next hm =>
          split
          · next concl rule' happ =>
            have hrule : 0 ≤ rule.confidence :=
              hr _ (lookupKV_some_mem_pair eng.rules n rule heq)
            have hconcl : 0 ≤ concl.confidence := by
              rw [(applyRule_conf query rule concl rule' happ).1]
              exact hrule
            have heng1 : ∀ p ∈ setKV eng.rules n rule', 0 ≤ p.2.confidence := by
              intro p hp
              rcases mem_setKV eng.rules n rule' p hp with h' | h'
              · exact hr p h'
              · rw [h']
                show 0 ≤ rule'.confidence
                rw [(applyRule_conf query rule concl rule' happ).2]
                exact hrule
            cases fuel with
            | zero =>
              simp only []
              have hcont := ihn query { eng with rules := setKV eng.rules n rule' }
                (ruleHitTrace tr n concl depth).1 depth maxDepth heng1
              refine ⟨hcont.1, ?_⟩
              intro c hc
              rcases List.mem_append.1 hc with h12 | h3
              · rcases List.mem_append.1 h12 with h1 | h2
                · rw [ruleHitTrace_ghost tr n concl depth c h1]
                  exact hconcl
                · cases h2
              · exact hcont.2 c h3
            | succ fuel' =>
              simp only []
              have hdeep := ihf fuel' (Nat.lt_succ_self _)
                (keysOf (setKV eng.rules n rule')) concl.content
                { eng with rules := setKV eng.rules n rule' }
                (ruleHitTrace tr n concl depth).1 (depth + 1) maxDepth heng1
              have hcont := ihn query
                (applyRulesGo fuel' (keysOf (setKV eng.rules n rule')) concl.content
                  { eng with rules := setKV eng.rules n rule' }
                  (ruleHitTrace tr n concl depth).1 (depth + 1) maxDepth).1
                (applyRulesGo fuel' (keysOf (setKV eng.rules n rule')) concl.content
                  { eng with rules := setKV eng.rules n rule' }
                  (ruleHitTrace tr n concl depth).1 (depth + 1) maxDepth).2.1
                depth maxDepth hdeep.1
              refine ⟨hcont.1, ?_⟩
              intro c hc
              rcases List.mem_append.1 hc with h12 | h3
              · rcases List.mem_append.1 h12 with h1 | h2
                · rw [ruleHitTrace_ghost tr n concl depth c h1]
                  exact hconcl
                · exact hdeep.2 c h2
              · exact hcont.2 c h3
          · exact ihn query eng tr depth maxDepth hr
        · exact ihn query eng tr depth maxDepth hr

/-- `applyRules` version of `applyRulesGo_conf`. -/
theorem applyRules_conf (query : String) (eng : Engine) (tr : Trace)
    (depth maxDepth : Nat) :
    (applyRules query eng tr depth maxDepth).2.1.confidence
      = (applyRules query eng tr depth maxDepth).2.2.foldl max tr.confidence := by
  simp only [applyRules]
  split
  · rfl
  · exact applyRulesGo_conf _ _ _ _ _ _ _

/-- `applyRules` version of `applyRulesGo_nonneg`. -/
theorem applyRules_nonneg (query : String) (eng : Engine) (tr : Trace)
    (depth maxDepth : Nat) (hr : ∀ p ∈ eng.rules, 0 ≤ p.2.confidence) :
    ∀ c ∈ (applyRules query eng tr depth maxDepth).2.2, 0 ≤ c := by
  simp only [applyRules]
  split
  · intro c hc; cases hc
  · exact (applyRulesGo_nonneg _ _ _ _ _ _ _ hr).2
/-- Every `recall` result clears the `0.1` relevance filter. -/
theorem recallOp_relevance (now : ℚ) (query : JSValue) (mt : String) (m : Memory)
    (r : SearchResult) (h : r ∈ (recallOp now query mt m).1) :
    1/10 < r.relevance := by
  simp only [recallOp] at h
  have h' := (sortDescBy_perm (fun r : SearchResult => r.relevance) _).mem_iff.1 h
  rcases List.mem_append.1 h' with h12 | h3
  · rcases List.mem_append.1 h12 with h1 | h2
    · exact searchShortTerm_relevance query m r (mem_of_mem_ite_nil h1)
    · exact searchLongTerm_relevance query m r (mem_of_mem_ite_nil h2)
  · exact searchEpisodic_relevance query m r (mem_of_mem_ite_nil h3)

/-- Short-term search results inherit a stored item's importance. -/
theorem searchShortTerm_importance (query : JSValue) (m : Memory)
    (hst : ∀ it ∈ m.shortTerm, 0 ≤ it.importance) (r : SearchResult)
    (h : r ∈ searchShortTerm query m) : 0 ≤ r.importance := by
  simp only [searchShortTerm, List.mem_filter, List.mem_map] at h
  obtain ⟨⟨it, hit, rfl⟩, _⟩ := h
  exact hst it hit

/-- Long-term search results inherit a stored item's importance. -/
theorem searchLongTerm_importance (query : JSValue) (m : Memory)
    (hlt : ∀ p ∈ m.longTerm, 0 ≤ p.2.importance) (r : SearchResult)
    (h : r ∈ searchLongTerm query m) : 0 ≤ r.importance := by
  simp only [searchLongTerm, List.mem_filterMap] at h
  obtain ⟨e, he, heq⟩ := h
  split at heq
  · cases heq
    exact hlt e he
  · cases heq

/-- Episodic search results inherit a stored episode's importance. -/
theorem searchEpisodic_importance (query : JSValue) (m : Memory)
    (hep : ∀ ep ∈ m.episodic, 0 ≤ ep.importance) (r : SearchResult)
    (h : r ∈ searchEpisodic query m) : 0 ≤ r.importance := by
  simp only [searchEpisodic, List.mem_filter, List.mem_map] at h
  obtain ⟨⟨ep, hmem, rfl⟩, _⟩ := h
  exact hep ep hmem

/-- With all stored importances nonnegative, every `recall` result has a
nonnegative importance. -/
theorem recallOp_importance (now : ℚ) (query : JSValue) (mt : String) (m : Memory)
    (hst : ∀ it ∈ m.shortTerm, 0 ≤ it.importance)
    (hlt : ∀ p ∈ m.longTerm, 0 ≤ p.2.importance)
    (hep : ∀ ep ∈ m.episodic, 0 ≤ ep.importance)
    (r : SearchResult) (h : r ∈ (recallOp now query mt m).1) : 0 ≤ r.importance := by
  simp only [recallOp] at h
  have h' := (sortDescBy_perm (fun r : SearchResult => r.relevance) _).mem_iff.1 h
  rcases List.mem_append.1 h' with h12 | h3
  · rcases List.mem_append.1 h12 with h1 | h2
    · exact searchShortTerm_importance query m hst r (mem_of_mem_ite_nil h1)
    · exact searchLongTerm_importance query m hlt r (mem_of_mem_ite_nil h2)
  · exact searchEpisodic_importance query m hep r (mem_of_mem_ite_nil h3)

/-- `updateAccess` never touches the three storage tiers. -/
theorem updateAccess_frame (now : ℚ) (id : String) (m : Memory) :
    (updateAccess now id m).shortTerm = m.shortTerm ∧
    (updateAccess now id m).longTerm = m.longTerm ∧
    (updateAccess now id m).episodic = m.episodic := by
  simp only [updateAccess]
  split <;> exact ⟨rfl, rfl, rfl⟩

/-- The access-update fold of `recall` never touches the storage tiers. -/
theorem foldl_updateAccess_frame (now : ℚ) :
    ∀ (rs : List SearchResult) (m : Memory),
      ((rs.foldl (fun mm r => updateAccess now r.id mm) m).shortTerm = m.shortTerm ∧
       (rs.foldl (fun mm r => updateAccess now r.id mm) m).longTerm = m.longTerm ∧
       (rs.foldl (fun mm r => updateAccess now r.id mm) m).episodic = m.episodic) := by
  intro rs
  induction rs with
  | nil => intro m; exact ⟨rfl, rfl, rfl⟩
  | cons r rest ih =>
    intro m
    have h1 := updateAccess_frame now r.id m
    have h2 := ih (updateAccess now r.id m)
    exact ⟨h2.1.trans h1.1, h2.2.1.trans h1.2.1, h2.2.2.trans h1.2.2⟩

/-- The memory returned by `recall` has the same three storage tiers. -/
theorem recallOp_frame (now : ℚ) (query : JSValue) (mt : String) (m : Memory) :
    (recallOp now query mt m).2.shortTerm = m.shortTerm ∧
    (recallOp now query mt m).2.longTerm = m.longTerm ∧
    (recallOp now query mt m).2.episodic = m.episodic := by
  simp only [recallOp]
  exact foldl_updateAccess_frame now _ m

/-- `explainConcept` returns a nonnegative confidence. -/
theorem explainConcept_conf_nonneg (now : ℚ) (c : String) (mem : Memory) :
    0 ≤ (explainConcept now c mem).1.confidence := by
  simp only [explainConcept]
  split
  · next best rest heq =>
    have hmem : best ∈ (recallOp now (JSValue.str c) "all" mem).1 := by
      rw [heq]
      exact List.mem_cons_self best rest
    have hrel := recallOp_relevance now (JSValue.str c) "all" mem best hmem
    exact le_of_lt (lt_trans (by norm_num) hrel)
  · norm_num

/-- `provideInstructions` returns a nonnegative confidence. -/
theorem provideInstructions_conf_nonneg (now : ℚ) (t : String) (mem : Memory) :
    0 ≤ (provideInstructions now t mem).1.confidence := by
  simp only [provideInstructions]
  split
  · next best rest heq =>
    have hmem : best ∈ (recallOp now (JSValue.str ("how to " ++ t)) "all" mem).1 := by
      rw [heq]
      exact List.mem_cons_self best rest
    have hrel := recallOp_relevance now (JSValue.str ("how to " ++ t)) "all" mem best hmem
    exact le_of_lt (lt_trans (by norm_num) hrel)
  · norm_num

/-- `explainReason` returns a nonnegative confidence. -/
theorem explainReason_conf_nonneg (now : ℚ) (s : String) (mem : Memory) :
    0 ≤ (explainReason now s mem).1.confidence := by
  simp only [explainReason]
  split
  · next best rest heq =>
    have hmem : best ∈ (recallOp now (JSValue.str ("because " ++ s)) "all" mem).1 := by
      rw [heq]
      exact List.mem_cons_self best rest
    have hrel := recallOp_relevance now (JSValue.str ("because " ++ s)) "all" mem best hmem
    exact le_of_lt (lt_trans (by norm_num) hrel)
  · norm_num

/-- `provideTimeInfo` returns a nonnegative confidence. -/
theorem provideTimeInfo_conf_nonneg (now : ℚ) (ev : String) (mem : Memory) :
    0 ≤ (provideTimeInfo now ev mem).1.confidence := by
  simp only [provideTimeInfo]
  split
  · next best rest heq =>
    have hmem : best ∈ (recallOp now (JSValue.str ("when " ++ ev)) "all" mem).1 := by
      rw [heq]
      exact List.mem_cons_self best rest
    have hrel := recallOp_relevance now (JSValue.str ("when " ++ ev)) "all" mem best hmem
    exact le_of_lt (lt_trans (by norm_num) hrel)
  · norm_num

/-- The confidence after a pattern merge is the max-fold of its ghost
contributions over the incoming confidence. -/
theorem mergePattern_conf (tr : Trace) (p : String) (hr : HandlerResult) :
    (mergePattern tr p hr).1.confidence
      = (mergePattern tr p hr).2.foldl max tr.confidence := by
  simp only [mergePattern]
  split <;> rfl

/-- Any ghost contribution of a pattern merge is the handler's confidence. -/
theorem mergePattern_ghost (tr : Trace) (p : String) (hr : HandlerResult)
    (c : ℚ) (h : c ∈ (mergePattern tr p hr).2) : c = hr.confidence := by
  simp only [mergePattern] at h
  split at h
  · cases h
  · exact List.mem_singleton.1 h

/-- The confidence after the pattern-matching step is the max-fold of its
ghost contributions over the incoming confidence. -/
theorem patternMatchingStep_conf (now : ℚ) (query : String) (mem : Memory)
    (tr : Trace) :
    (patternMatchingStep now query mem tr).1.confidence
      = (patternMatchingStep now query mem tr).2.2.foldl max tr.confidence := by
  simp only [patternMatchingStep]
  split
  · exact mergePattern_conf _ _ _
  · split
    · exact mergePattern_conf _ _ _
    · split
      · exact mergePattern_conf _ _ _
      · split
        · exact mergePattern_conf _ _ _
        · rfl

/-- Every ghost contribution of the pattern-matching step is nonnegative. -/
theorem patternMatchingStep_nonneg (now : ℚ) (query : String) (mem : Memory)
    (tr : Trace) (c : ℚ) (h : c ∈ (patternMatchingStep now query mem tr).2.2) :
    0 ≤ c := by
  simp only [patternMatchingStep] at h
  split at h
  · next concept _ =>
    rw [mergePattern_ghost _ _ _ _ h]
    exact explainConcept_conf_nonneg now concept mem
  · split at h
    · next task _ =>
      rw [mergePattern_ghost _ _ _ _ h]
      exact provideInstructions_conf_nonneg now task mem
    · split at h
      · next statement _ =>
        rw [mergePattern_ghost _ _ _ _ h]
        exact explainReason_conf_nonneg now statement mem
      · split at h
        · next ev _ =>
          rw [mergePattern_ghost _ _ _ _ h]
          exact provideTimeInfo_conf_nonneg now ev mem
        · cases h

/-- A detected analogy always carries a nonnegative confidence (a ratio of
shared-token counts). -/
theorem findAnalogy_conf_nonneg (s : String) (t : Option JSValue) (an : Analogy)
    (h : findAnalogy s t = .ok (some an)) : 0 ≤ an.confidence := by
  simp only [findAnalogy] at h
  split at h
  · split at h
    · simp only [Except.ok.injEq, Option.some.injEq] at h
      rw [← h]
      show 0 ≤ _ / _
      apply div_nonneg
      · exact Nat.cast_nonneg _
      · exact Nat.cast_nonneg _
    · cases h
  · cases h

/-- The analogy loop: the final confidence is the max-fold of the new ghost
contributions over the incoming confidence, and each contribution is
nonnegative. -/
theorem analogicalLoop_spec (query : String) :
    ∀ (sims : List SearchResult) (tr : Trace) (acc : List ℚ) (tr' : Trace)
      (cs' : List ℚ), analogicalLoop query sims tr acc = .ok (tr', cs') →
      ∃ csN, cs' = acc ++ csN ∧ tr'.confidence = csN.foldl max tr.confidence ∧
        ∀ c ∈ csN, 0 ≤ c := by
  intro sims
  induction sims with
  | nil =>
    intro tr acc tr' cs' h
    simp only [analogicalLoop] at h
    simp only [Except.ok.injEq, Prod.mk.injEq] at h
    obtain ⟨rfl, rfl⟩ := h
    exact ⟨[], (List.append_nil acc).symm, rfl, by intro c hc; cases hc⟩
  | cons sim rest ih =>
    intro tr acc tr' cs' h
    simp only [analogicalLoop] at h
    split at h
    · cases h
    · exact ih tr acc tr' cs' h
    · next an heq =>
      split at h
      · cases h
      · obtain ⟨csN, hcs, hconf, hnn⟩ := ih _ acc tr' cs' h
        exact ⟨csN, hcs, hconf, hnn⟩
      · obtain ⟨csN, hcs, hconf, hnn⟩ := ih _ _ tr' cs' h
        refine ⟨an.confidence * (7/10) :: csN, ?_, ?_, ?_⟩
        · rw [hcs, List.append_assoc]
          rfl
        · exact hconf
        · intro c hc
          rcases List.mem_cons.1 hc with rfl | hc'
          · exact mul_nonneg (findAnalogy_conf_nonneg query sim.content an heq)
              (by norm_num)
          · exact hnn c hc'

/-- The analogical step: max-fold confidence, nonnegative contributions, and
an unchanged three-tier store. -/
theorem analogicalStep_spec (now : ℚ) (query : String) (mem : Memory)
    (tr : Trace) (tr' : Trace) (mem' : Memory) (cs : List ℚ)
    (h : analogicalStep now query mem tr = .ok (tr', mem', cs)) :
    tr'.confidence = cs.foldl max tr.confidence ∧ (∀ c ∈ cs, 0 ≤ c) ∧
      mem'.shortTerm = mem.shortTerm ∧ mem'.longTerm = mem.longTerm ∧
      mem'.episodic = mem.episodic := by
  simp only [analogicalStep] at h
  split at h
  · cases h
  · next tr2 cs2 heq =>
    simp only [Except.ok.injEq, Prod.mk.injEq] at h
    obtain ⟨rfl, rfl, rfl⟩ := h
    obtain ⟨csN, hcs, hconf, hnn⟩ := analogicalLoop_spec query _ tr [] tr2 cs2 heq
    rw [List.nil_append] at hcs
    subst hcs
    have hfr := recallOp_frame now (JSValue.str query) "episodic" mem
    exact ⟨hconf, hnn, hfr.1, hfr.2.1, hfr.2.2⟩
/-- A relevant fact is a stored fact. -/
theorem findRelevantFacts_mem (query : String) (e : Engine) (f : Fact)
    (h : f ∈ findRelevantFacts query e) : f ∈ e.facts := by
  simp only [findRelevantFacts] at h
  have h' := (sortDescBy_perm (fun f : Fact => f.confidence) _).mem_iff.1 h
  exact (List.mem_filter.1 h').1

/-- Phase 1: with nonnegative stored fact confidences and a zero-confidence
incoming trace, the assigned confidence is the max-fold of the ghost
contributions and each contribution is nonnegative. -/
theorem directFactPhase_conf (query : String) (eng : Engine) (tr0 : Trace)
    (hf : ∀ f ∈ eng.facts, 0 ≤ f.confidence) (h0 : tr0.confidence = 0) :
    (directFactPhase query eng tr0).1.confidence
        = (directFactPhase query eng tr0).2.foldl max tr0.confidence ∧
      ∀ c ∈ (directFactPhase query eng tr0).2, 0 ≤ c := by
  cases hdf : findRelevantFacts query eng with
  | nil =>
    simp only [directFactPhase, hdf]
    exact ⟨rfl, by intro c hc; cases hc⟩
  | cons f rest =>
    have hf0 : 0 ≤ f.confidence := hf f (findRelevantFacts_mem query eng f
      (by rw [hdf]; exact List.mem_cons_self f rest))
    simp only [directFactPhase, hdf]
    constructor
    · show f.confidence = max tr0.confidence f.confidence
      rw [h0]
      exact (max_eq_right hf0).symm
    · intro c hc
      rw [List.mem_singleton.1 hc]
      exact hf0

/-- Phase 1 leaves the confidence alone when it adds no conclusion. -/
theorem directFactPhase_concl (query : String) (eng : Engine) (tr0 : Trace)
    (hlen : (directFactPhase query eng tr0).1.conclusions.length = 0) :
    (directFactPhase query eng tr0).1.confidence = tr0.confidence := by
  cases hdf : findRelevantFacts query eng with
  | nil => simp only [directFactPhase, hdf]
  | cons f rest =>
    exfalso
    simp only [directFactPhase, hdf] at hlen
    rw [List.length_append] at hlen
    simp at hlen

/-- Phase 2: with a nonnegative product for every result and a zero
confidence whenever no conclusion exists yet, the assigned confidence is the
max-fold of the ghost contributions and each contribution is nonnegative. -/
theorem memoryPhase_conf (results : List SearchResult) (tr : Trace)
    (himp : ∀ r ∈ results, 0 ≤ r.relevance * r.importance)
    (h0 : tr.conclusions.length = 0 → tr.confidence = 0) :
    (memoryPhase results tr).1.confidence
        = (memoryPhase results tr).2.foldl max tr.confidence ∧
      ∀ c ∈ (memoryPhase results tr).2, 0 ≤ c := by
  cases results with
  | nil => exact ⟨rfl, by intro c hc; cases hc⟩
  | cons best rest =>
    have hx : 0 ≤ best.relevance * best.importance :=
      himp best (List.mem_cons_self best rest)
    simp only [memoryPhase]
    split
    · next hlen =>
      constructor
      · show best.relevance * best.importance
            = max tr.confidence (best.relevance * best.importance)
        rw [h0 hlen]
        exact (max_eq_right hx).symm
      · intro c hc
        rw [List.mem_singleton.1 hc]
        exact hx
    · exact ⟨rfl, by intro c hc; cases hc⟩

/-- On a successful run of `reason`, the trace's aggregate confidence is the
max-fold of the ghost contribution list over `0`, and every contribution is
nonnegative — provided every stored fact and rule confidence and every
stored importance is nonnegative. -/
theorem reason_spec (now : ℚ) (query : String) (mem : Memory) (eng : Engine)
    (maxDepth : Nat) (tr : Trace) (mem' : Memory) (eng' : Engine) (cs : List ℚ)
    (hf : ∀ f ∈ eng.facts, 0 ≤ f.confidence)
    (hr : ∀ p ∈ eng.rules, 0 ≤ p.2.confidence)
    (hst : ∀ it ∈ mem.shortTerm, 0 ≤ it.importance)
    (hlt : ∀ p ∈ mem.longTerm, 0 ≤ p.2.importance)
    (hep : ∀ ep ∈ mem.episodic, 0 ≤ ep.importance)
    (hok : reason now query mem eng maxDepth = .ok (tr, mem', eng', cs)) :
    tr.confidence = cs.foldl max 0 ∧ ∀ c ∈ cs, 0 ≤ c := by
  simp only [reason] at hok
  split at hok
  · cases hok
  · next tr5 mem5 cs5 heq =>
    simp only [Except.ok.injEq, Prod.mk.injEq] at hok
    obtain ⟨rfl, rfl, rfl, rfl⟩ := hok
    set tr0 := initialTrace now query with htr0
    set ph1 := directFactPhase query eng tr0 with hph1
    set rec1 := recallOp now (JSValue.str query) "all" mem with hrec1
    set ph2 := memoryPhase rec1.1 ph1.1 with hph2
    set ph3 := applyRules query eng ph2.1 0 maxDepth with hph3
    set ph4 := patternMatchingStep now query rec1.2 ph3.2.1 with hph4
    have htr0c : tr0.confidence = 0 := rfl
    have h1c := directFactPhase_conf query eng tr0 hf htr0c
    have himp : ∀ r ∈ rec1.1, 0 ≤ r.relevance * r.importance := by
      intro r hmem
      have hrel := recallOp_relevance now (JSValue.str query) "all" mem r hmem
      have himpo := recallOp_importance now (JSValue.str query) "all" mem
        hst hlt hep r hmem
      exact mul_nonneg (le_of_lt (lt_trans (by norm_num) hrel)) himpo
    have h0' : ph1.1.conclusions.length = 0 → ph1.1.confidence = 0 := by
      intro hlen
      exact (directFactPhase_concl query eng tr0 hlen).trans htr0c
    have h2c := memoryPhase_conf rec1.1 ph1.1 himp h0'
    have h3c : ph3.2.1.confidence = ph3.2.2.foldl max ph2.1.confidence :=
      applyRules_conf query eng ph2.1 0 maxDepth
    have h4c : ph4.1.confidence = ph4.2.2.foldl max ph3.2.1.confidence :=
      patternMatchingStep_conf now query rec1.2 ph3.2.1
    obtain ⟨hA1, hA2, _, _, _⟩ :=
      analogicalStep_spec now query ph4.2.1 ph4.1 tr5 mem5 cs5 heq
    constructor
    · show tr5.confidence = _
      rw [hA1, h4c, h3c, h2c.1, h1c.1, htr0c, List.foldl_append,
        List.foldl_append, List.foldl_append, List.foldl_append]
    · intro c hc
      rcases List.mem_append.1 hc with h1234 | h5
      · rcases List.mem_append.1 h1234 with h123 | h4'
        · rcases List.mem_append.1 h123 with h12 | h3'
          · rcases List.mem_append.1 h12 with h1' | h2'
            · exact h1c.2 c h1'
            · exact h2c.2 c h2'
          · exact applyRules_nonneg query eng ph2.1 0 maxDepth hr c h3'
        · exact patternMatchingStep_nonneg now query rec1.2 ph3.2.1 c h4'
      · exact hA2 c h5
/-- C4 (amended): on every successful `reason` run over a state whose stored
fact confidences, rule confidences and tier importances are all nonnegative
(which normal operation maintains), the trace's aggregate confidence equals
the maximum of the confidences contributed by the individual steps that
added a conclusion — it dominates every contribution, is itself one of the
contributions when there is one, and is `0` when there is none — never
their sum or mean. -/
theorem C4_confidence_amended (now : ℚ) (query : String) (mem : Memory)
    (eng : Engine) (maxDepth : Nat) (tr : Trace) (mem' : Memory)
    (eng' : Engine) (cs : List ℚ)
    (hf : ∀ f ∈ eng.facts, 0 ≤ f.confidence)
    (hr : ∀ p ∈ eng.rules, 0 ≤ p.2.confidence)
    (hst : ∀ it ∈ mem.shortTerm, 0 ≤ it.importance)
    (hlt : ∀ p ∈ mem.longTerm, 0 ≤ p.2.importance)
    (hep : ∀ ep ∈ mem.episodic, 0 ≤ ep.importance)
    (hok : reason now query mem eng maxDepth = Except.ok (tr, mem', eng', cs)) :
    tr.confidence = cs.foldl max 0 ∧
    (∀ c ∈ cs, c ≤ tr.confidence) ∧
    (cs ≠ [] → tr.confidence ∈ cs) ∧
    (cs = [] → tr.confidence = 0) := by
  obtain ⟨hconf, hnn⟩ :=
    reason_spec now query mem eng maxDepth tr mem' eng' cs hf hr hst hlt hep hok
  refine ⟨hconf, ?_, ?_, ?_⟩
  · intro c hc
    rw [hconf]
    exact (le_foldl_max cs 0).2 c hc
  · intro hne
    rcases foldl_max_mem cs 0 with h | h
    · rw [hconf]
      exact h
    · cases cs with
      | nil => exact absurd rfl hne
      | cons c0 rest =>
        have hle : c0 ≤ 0 := by
          have hd := (le_foldl_max (c0 :: rest) 0).2 c0 (List.mem_cons_self c0 rest)
          rw [h] at hd
          exact hd
        have hge : 0 ≤ c0 := hnn c0 (List.mem_cons_self c0 rest)
        rw [hconf, h, le_antisymm hge hle]
        exact List.mem_cons_self c0 rest
  · intro hnil
    rw [hconf, hnil]
    rfl

/-- Closed witness for the amended C4 statement: a concrete successful run
(the fresh engine and an empty memory on the query "hello"). -/
theorem C4_confidence_witness :
    ∃ tr mem' eng' cs,
      reason 0 "hello" (Memory.init 5 5 5) (Engine.init 0) 3
          = Except.ok (tr, mem', eng', cs) ∧
        (tr.confidence = cs.foldl max 0 ∧
         (∀ c ∈ cs, c ≤ tr.confidence) ∧
         (cs ≠ [] → tr.confidence ∈ cs) ∧
         (cs = [] → tr.confidence = 0)) := by
  cases hok : reason 0 "hello" (Memory.init 5 5 5) (Engine.init 0) 3 with
  | error e =>
    have hsome : (reason 0 "hello" (Memory.init 5 5 5)
        (Engine.init 0) 3).toOption.isSome = true := by
      with_unfolding_all decide
    rw [hok] at hsome
    simp [Except.toOption] at hsome
  | ok r =>
    exact ⟨r.1, r.2.1, r.2.2.1, r.2.2.2, rfl,
      C4_confidence_amended 0 "hello" (Memory.init 5 5 5) (Engine.init 0) 3
        r.1 r.2.1 r.2.2.1 r.2.2.2
        (by with_unfolding_all decide) (by with_unfolding_all decide)
        (by with_unfolding_all decide) (by with_unfolding_all decide)
        (by with_unfolding_all decide) hok⟩

/-- Counterexample to C4 as stated (over *every* engine state): with the
negative-confidence rule `negRule` installed, `reason` on "start x" merges
the single contribution `-0.5` with `max`, so the aggregate confidence is
`0`, not the maximum `-0.5` of the contributing steps' confidences. -/
theorem C4_confidence_cex :
    (reason 0 "start x" (Memory.init 5 5 5) engC4 3).toOption.map
        (fun r => (r.1.confidence, r.2.2.2)) = some (0, [-(1/2)]) ∧
    ¬ ((0 : ℚ) = -(1/2)) := by
  with_unfolding_all decide

end Agent
